import Mathlib

/-!
Verification development for the `syncstokzzhomey` stock dashboard.

The repository ships one script file containing two browser dashboard
variants:

* variant 1 (card view): `normalizeProducts`, `formatVariationInline`,
  `buildProductLink`, `applyFilter` over canonical products, `updateSummary`;
* variant 2 (table view): `normalizeRows`, its own `applyFilter` over flat
  rows, and summary counters computed inside `loadData`.

The embedding below models parsed JSON values as the inductive `JsVal` and
translates each relevant function of `src/public/app.js` into a Lean
definition.  Modelling choices, each noted where it applies:

* JavaScript numbers are modelled as integers (`Int`); the dashboards only
  read quantities from JSON and test `typeof x === "number"`, no float
  arithmetic is relied on by any property proved here.
* `undefined` is merged with `null` into `JsVal.null`: parsed JSON contains
  no `undefined`, and in every construct these scripts apply to a possibly
  missing value (`||`, `??`, truthiness tests, member access throwing a
  `TypeError`) `null` and `undefined` behave identically.
* A thrown `TypeError` (member access on `null`) is modelled by `Option`:
  a function returns `none` exactly when the script would throw.
* String primitives (`trim`, `trimStart`, `toLowerCase`, `startsWith`,
  `split`, `includes`, `replaceAll` with a single-character pattern) are
  implemented over `List Char` so that they compute by kernel reduction;
  they agree with the JavaScript primitives on the character sets involved.
-/

/-- A parsed JSON value as seen by the dashboard scripts. -/
inductive JsVal where
  | null
  | bool (b : Bool)
  | num (n : Int)
  | str (s : String)
  | arr (elems : List JsVal)
  | obj (fields : List (String × JsVal))
deriving Repr

namespace JsVal

mutual
/-- Structural equality of JSON values (JavaScript `SameValueZero` on
primitives; object identity never matters here because `JSON.parse`
produces no aliasing). -/
def beqVal : JsVal → JsVal → Bool
  | .null, .null => true
  | .bool a, .bool b => a = b
  | .num a, .num b => a = b
  | .str a, .str b => a = b
  | .arr a, .arr b => beqList a b
  | .obj a, .obj b => beqObj a b
  | _, _ => false
def beqList : List JsVal → List JsVal → Bool
  | [], [] => true
  | a :: as, b :: bs => beqVal a b && beqList as bs
  | _, _ => false
def beqObj : List (String × JsVal) → List (String × JsVal) → Bool
  | [], [] => true
  | (k1, v1) :: as, (k2, v2) :: bs => k1 = k2 && beqVal v1 v2 && beqObj as bs
  | _, _ => false
end

mutual
theorem beqVal_eq : ∀ a b : JsVal, beqVal a b = true → a = b
  | .null, b => by cases b <;> simp [beqVal]
  | .bool x, b => by cases b <;> simp [beqVal]
  | .num x, b => by cases b <;> simp [beqVal]
  | .str x, b => by cases b <;> simp [beqVal]
  | .arr xs, b => by
      cases b <;> simp [beqVal]
      exact fun h => beqList_eq xs _ h
  | .obj fs, b => by
      cases b <;> simp [beqVal]
      exact fun h => beqObj_eq fs _ h
theorem beqList_eq : ∀ as bs : List JsVal, beqList as bs = true → as = bs
  | [], bs => by cases bs <;> simp [beqList]
  | a :: as, [] => by simp [beqList]
  | a :: as, b :: bs => by
      simp only [beqList, Bool.and_eq_true]
      rintro ⟨h1, h2⟩
      rw [beqVal_eq a b h1, beqList_eq as bs h2]
theorem beqObj_eq : ∀ as bs : List (String × JsVal), beqObj as bs = true → as = bs
  | [], bs => by cases bs <;> simp [beqObj]
  | a :: as, [] => by simp [beqObj]
  | (k1, v1) :: as, (k2, v2) :: bs => by
      simp only [beqObj, Bool.and_eq_true, decide_eq_true_eq]
      rintro ⟨⟨h0, h1⟩, h2⟩
      rw [h0, beqVal_eq v1 v2 h1, beqObj_eq as bs h2]
end

mutual
theorem beqVal_refl : ∀ a : JsVal, beqVal a a = true
  | .null => rfl
  | .bool x => by simp [beqVal]
  | .num x => by simp [beqVal]
  | .str x => by simp [beqVal]
  | .arr xs => by simp only [beqVal]; exact beqList_refl xs
  | .obj fs => by simp only [beqVal]; exact beqObj_refl fs
theorem beqList_refl : ∀ as : List JsVal, beqList as as = true
  | [] => rfl
  | a :: as => by
      simp only [beqList, Bool.and_eq_true]
      exact ⟨beqVal_refl a, beqList_refl as⟩
theorem beqObj_refl : ∀ as : List (String × JsVal), beqObj as as = true
  | [] => rfl
  | (k, v) :: as => by
      simp only [beqObj, Bool.and_eq_true, decide_eq_true_eq]
      exact ⟨⟨trivial, beqVal_refl v⟩, beqObj_refl as⟩
end

instance : DecidableEq JsVal := fun a b =>
  decidable_of_iff (beqVal a b = true) ⟨beqVal_eq a b, fun h => h ▸ beqVal_refl a⟩

end JsVal

/-! ### String primitives, computed over `List Char` -/

/-- The whitespace characters relevant to the payloads in scope (JavaScript
`trim` also strips rarer Unicode spaces, which never occur here). -/
def jsSpace (c : Char) : Bool := c = ' ' || c = '\t' || c = '\n' || c = '\r'

/-- JavaScript `String.prototype.trimStart`. -/
def strTrimStart (s : String) : String := String.mk (s.toList.dropWhile jsSpace)

/-- JavaScript `String.prototype.trim`. -/
def strTrim (s : String) : String :=
  String.mk (((s.toList.dropWhile jsSpace).reverse.dropWhile jsSpace).reverse)

/-- JavaScript `String.prototype.toLowerCase` (ASCII range; no payload here
uses characters whose lowercasing differs). -/
def strLower (s : String) : String := String.mk (s.toList.map Char.toLower)

/-- JavaScript `String.prototype.startsWith`. -/
def strStartsWith (s p : String) : Bool := p.toList.isPrefixOf s.toList

/-- Substring occurrence test on character lists. -/
def hasSub (needle : List Char) : List Char → Bool
  | [] => needle.isEmpty
  | c :: rest => needle.isPrefixOf (c :: rest) || hasSub needle rest

/-- JavaScript `String.prototype.includes`. -/
def strIncludes (hay needle : String) : Bool := hasSub needle.toList hay.toList

/-- Split a character list on a separator character, JavaScript
`split(sep)` semantics (an empty input yields one empty part). -/
def splitChar (sep : Char) : List Char → List (List Char)
  | [] => [[]]
  | c :: rest =>
    if c = sep then [] :: splitChar sep rest
    else match splitChar sep rest with
      | [] => [[c]]
      | h :: r => (c :: h) :: r

/-- JavaScript `split(",")`. -/
def strSplitComma (s : String) : List String := (splitChar ',' s.toList).map String.mk

/-- JavaScript `join("")`. -/
def joinStrs : List String → String
  | [] => ""
  | x :: rest => x ++ joinStrs rest

/-- JavaScript `join(sep)`. -/
def joinSep (sep : String) : List String → String
  | [] => ""
  | [x] => x
  | x :: y :: rest => x ++ sep ++ joinSep sep (y :: rest)

/-- `List.flatMap`, restated structurally so concrete runs reduce. -/
def flatMapList (f : α → List β) : List α → List β
  | [] => []
  | a :: l => f a ++ flatMapList f l

/-! ### JavaScript value primitives -/

namespace JsVal

/-- JavaScript truthiness (`NaN` is absent because numbers are integers). -/
def truthy : JsVal → Bool
  | .null => false
  | .bool b => b
  | .num n => n ≠ 0
  | .str s => s ≠ ""
  | .arr _ => true
  | .obj _ => true

end JsVal

/-- JavaScript `a || b` (value-preserving disjunction). -/
def jsOr (a b : JsVal) : JsVal := if a.truthy then a else b

/-- JavaScript `a ?? b` (nullish coalescing; `undefined` is merged into
`JsVal.null`, see the header note). -/
def jsCoalesce (a b : JsVal) : JsVal :=
  match a with
  | .null => b
  | _ => a

/-- Property lookup in an object's field list; a missing field is
`undefined`, modelled as `.null`.  `JSON.parse` collapses duplicate keys, so
the lookup direction is immaterial. -/
def getField : List (String × JsVal) → String → JsVal
  | [], _ => .null
  | (k, v) :: rest, key => if k = key then v else getField rest key

/-- JavaScript member access `v.key`: accessing a property of `null` (or
`undefined`) throws a `TypeError`, modelled as `none`; property access on a
non-object primitive yields `undefined`. -/
def jsGet : JsVal → String → Option JsVal
  | .null, _ => none
  | .obj fs, key => some (getField fs key)
  | _, _ => some .null

/-- Member access for places where the receiver is already known non-null
(the defaulted value is never produced on the code paths that use it). -/
def jsGetD (v : JsVal) (key : String) : JsVal := (jsGet v key).getD .null

/-- JavaScript optional chaining `v?.key`: never throws. -/
def jsOptGet (v : JsVal) (key : String) : JsVal :=
  match v with
  | .null => .null
  | .obj fs => getField fs key
  | _ => .null

mutual
/-- JavaScript `String(v)` conversion.  An array converts by joining its
elements with `","`, with `null`/`undefined` elements becoming empty. -/
def jsToString : JsVal → String
  | .null => "null"
  | .bool true => "true"
  | .bool false => "false"
  | .num n => toString n
  | .str s => s
  | .arr es => joinSep "," (jsArrParts es)
  | .obj _ => "[object Object]"
def jsArrParts : List JsVal → List String
  | [] => []
  | .null :: es => "" :: jsArrParts es
  | e :: es => jsToString e :: jsArrParts es
end

/-- One hexadecimal digit, lowercase, as emitted by `JSON.stringify`'s
`\u00XX` escapes. -/
def hexDigit (n : Nat) : Char :=
  if n < 10 then Char.ofNat ('0'.toNat + n) else Char.ofNat ('a'.toNat + n - 10)

/-- JSON string escaping of one character. -/
def jsonEscapeChar (c : Char) : List Char :=
  if c = '"' then ['\\', '"']
  else if c = '\\' then ['\\', '\\']
  else if c = '\n' then ['\\', 'n']
  else if c = '\r' then ['\\', 'r']
  else if c = '\t' then ['\\', 't']
  else if c.toNat = 8 then ['\\', 'b']
  else if c.toNat = 12 then ['\\', 'f']
  else if c.toNat < 32 then
    ['\\', 'u', '0', '0', hexDigit (c.toNat / 16), hexDigit (c.toNat % 16)]
  else [c]

/-- A JSON string literal with its quotes. -/
def jsonQuote (s : String) : String :=
  "\"" ++ String.mk (flatMapList jsonEscapeChar s.toList) ++ "\""

mutual
/-- `JSON.stringify` on parsed JSON values (its inputs here come from
`JSON.parse`, so no `undefined` and no cycles). -/
def jsonStringify : JsVal → String
  | .null => "null"
  | .bool true => "true"
  | .bool false => "false"
  | .num n => toString n
  | .str s => jsonQuote s
  | .arr es => "[" ++ joinSep "," (jsonArrParts es) ++ "]"
  | .obj fs => "\x7b" ++ joinSep "," (jsonObjParts fs) ++ "\x7d"
def jsonArrParts : List JsVal → List String
  | [] => []
  | e :: es => jsonStringify e :: jsonArrParts es
def jsonObjParts : List (String × JsVal) → List String
  | [] => []
  | (k, v) :: fs => (jsonQuote k ++ ":" ++ jsonStringify v) :: jsonObjParts fs
end

/-! ### Option-monad list helpers (a `none` models a thrown `TypeError`;
like JavaScript, evaluation stops at the first throwing element) -/

def mapOpt (f : α → Option β) : List α → Option (List β)
  | [] => some []
  | a :: l => do
      let b ← f a
      let rest ← mapOpt f l
      pure (b :: rest)

def filterOpt (f : α → Option Bool) : List α → Option (List α)
  | [] => some []
  | a :: l => do
      let keep ← f a
      let rest ← filterOpt f l
      pure (if keep then a :: rest else rest)

/-! ### `app.js`, shared helpers (both variants define them identically) -/

/-- `isReadyProductName(name)`:
`String(name || "").trimStart().toLowerCase().startsWith("[ready]")`. -/
def isReadyProductName (name : JsVal) : Bool :=
  strStartsWith (strLower (strTrimStart (jsToString (jsOr name (.str ""))))) "[ready]"

/-- `escapeHtml`'s `replaceAll` steps; every pattern used is a single
character, so `replaceAll` is the per-character expansion below. -/
def replaceAllChar (s : String) (p : Char) (r : String) : String :=
  String.mk (flatMapList (fun c => if c = p then r.toList else [c]) s.toList)

/-- `escapeHtml(value)` (identical in both variants). -/
def escapeHtml (value : JsVal) : String :=
  let s0 := jsToString (jsCoalesce value (.str ""))
  let s1 := replaceAllChar s0 '&' "&amp;"
  let s2 := replaceAllChar s1 '<' "&lt;"
  let s3 := replaceAllChar s2 '>' "&gt;"
  let s4 := replaceAllChar s3 '"' "&quot;"
  replaceAllChar s4 '\'' "&#039;"

/-- `buildProductLink(baseWebsite, productId, productSlug)` (variant 1). -/
def buildProductLink (baseWebsite productId productSlug : JsVal) : String :=
  let base0 := strTrim (jsToString (jsOr baseWebsite (.str "")))
  let base1 := if base0 = "" then "zzhomey.com" else base0
  let base2 :=
    if strStartsWith base1 "http://" || strStartsWith base1 "https://" then base1
    else "https://" ++ base1
  let base3 := String.mk ((base2.toList.reverse.dropWhile (fun c => c = '/')).reverse)
  if productSlug.truthy then base3 ++ "/product/" ++ jsToString productSlug
  else base3 ++ "/product/" ++ jsToString (jsOr productId (.str ""))

/-- `item && typeof item === "object"`: objects and arrays pass, `null` and
primitives do not. -/
def isObjectLike : JsVal → Bool
  | .obj _ => true
  | .arr _ => true
  | _ => false

/-- The body of `formatVariationInline`'s `variations.map(...)` callback:
one entry rendered as `{text}`, or `""` for an entry that resolves to empty
text. -/
def entryBrace (item : JsVal) : String :=
  if isObjectLike item then
    let raw := jsOr (jsGetD item "value") (jsOr (jsGetD item "option")
      (jsOr (jsGetD item "name") (jsOr (jsGetD item "key") (.str ""))))
    let text := strTrim (jsToString (jsOr raw (.str "")))
    if text = "" then "" else "\x7b" ++ text ++ "\x7d"
  else
    let text := strTrim (jsToString (jsOr item (.str "")))
    if text = "" then "" else "\x7b" ++ text ++ "\x7d"

/-- `formatVariationInline`'s code after the early `variations` return:
the `variation_text` / `sku` / literal fallback chain. -/
def variationFallback (variationText sku : JsVal) : String :=
  let clean := strTrim (jsToString (jsOr variationText (.str "")))
  if clean ≠ "" then
    if strStartsWith clean "\x7b" then clean
    else joinStrs ((((strSplitComma clean).map strTrim).filter (fun p => p ≠ "")).map
      (fun p => "\x7b" ++ p ++ "\x7d"))
  else if strTrim (jsToString (jsOr sku (.str ""))) ≠ "" then
    "\x7bSKU:" ++ strTrim (jsToString sku) ++ "\x7d"
  else "\x7bTanpa Variasi\x7d"

/-- `formatVariationInline(variations, variationText, sku)` (variant 1):
a present non-empty `variations` array returns early with its rendered
entries, empty or not; anything else falls to the text chain. -/
def formatVariationInline (variations variationText sku : JsVal) : String :=
  match variations with
  | .arr (x :: xs) =>
      joinStrs (((x :: xs).map entryBrace).filter (fun s => s ≠ ""))
  | _ => variationFallback variationText sku

/-! ### Variant 1: `normalizeProducts` and its canonical product model -/

/-- One stock line of a canonical product (variant 1).  `variation_inline`
is always the string `formatVariationInline` returned; the other fields are
copied JSON values. -/
structure StockLine where
  variation_inline : String
  stock : JsVal
  sku : JsVal
  link : JsVal
deriving DecidableEq, Repr

/-- A canonical product as built by `normalizeProducts` (variant 1). -/
structure CanonicalProduct where
  product_id : JsVal
  product_name : JsVal
  product_link : JsVal
  product_image : JsVal
  lines : List StockLine
deriving DecidableEq, Repr

/-- `payload?.source?.website || "zzhomey.com"` (the module-level
`sourceWebsite`, assigned at the top of `normalizeProducts` and read by the
link fallbacks of the same call). -/
def sourceWebsite (payload : JsVal) : JsVal :=
  jsOr (jsOptGet (jsOptGet payload "source") "website") (.str "zzhomey.com")

/-- The nested-shape ready gate:
`isReadyProductName(product.product_name || product.name)`.  Throws
(`none`) exactly when `product` is `null`. -/
def readyNestedM (pr : JsVal) : Option Bool := do
  let pn ← jsGet pr "product_name"
  let nm ← jsGet pr "name"
  pure (isReadyProductName (jsOr pn nm))

/-- The flat-shape ready gate: `isReadyProductName(row.product_name)`. -/
def readyRowM (row : JsVal) : Option Bool := do
  let pn ← jsGet row "product_name"
  pure (isReadyProductName pn)

/-- One line of the nested branch's `stocks.map(...)`.  Throws exactly when
the stock entry is `null`. -/
def lineOfStockM (productLink : JsVal) (st : JsVal) : Option StockLine := do
  let v ← jsGet st "variations"
  let t ← jsGet st "variation_text"
  let sk ← jsGet st "sku"
  let stk ← jsGet st "stock"
  pure { variation_inline := formatVariationInline v t sk
         stock := stk
         sku := sk
         link := productLink }

/-- The nested branch's `products.map(...)` body.  The short-circuit of
`a.f || a.g` is flattened into unconditional reads: the receiver is the
same, so the success condition and the value are unchanged. -/
def mkNestedProductM (sw pr : JsVal) : Option CanonicalProduct := do
  let pid ← jsGet pr "product_id"
  let pid2 ← jsGet pr "id"
  let pname ← jsGet pr "product_name"
  let pname2 ← jsGet pr "name"
  let pslug ← jsGet pr "product_slug"
  let pslug2 ← jsGet pr "slug"
  let plink ← jsGet pr "product_link"
  let pimage ← jsGet pr "product_image"
  let stocksRaw ← jsGet pr "stocks"
  let productId := jsOr pid (jsOr pid2 (.str ""))
  let productName := jsOr pname (jsOr pname2 (.str "Tanpa Nama"))
  let productSlug := jsOr pslug (jsOr pslug2 (.str ""))
  let productLink := jsOr plink (.str (buildProductLink sw productId productSlug))
  let stocks := match stocksRaw with | .arr l => l | _ => []
  let lines ← mapOpt (lineOfStockM productLink) stocks
  pure { product_id := productId
         product_name := productName
         product_link := productLink
         product_image := jsOr pimage (.str "")
         lines := lines }

/-- The flat branch's per-row line.  `bucketLink` is the owning bucket's
`product_link`, fixed at bucket creation. -/
def mkFlatLine (row bucketLink : JsVal) : StockLine :=
  { variation_inline :=
      formatVariationInline (.arr []) (jsGetD row "variation_text") (jsGetD row "sku")
    stock := jsGetD row "stock"
    sku := jsGetD row "sku"
    link := jsOr (jsGetD row "product_link") bucketLink }

/-- The flat branch's grouping key: `row.product_id || row.product_name || ""`. -/
def flatKey (row : JsVal) : JsVal :=
  jsOr (jsGetD row "product_id") (jsOr (jsGetD row "product_name") (.str ""))

/-- The bucket created for the first row seen with a fresh key. -/
def mkBucket (sw row : JsVal) : CanonicalProduct :=
  let fallbackLink := buildProductLink sw (jsGetD row "product_id") (.str "")
  { product_id := jsOr (jsGetD row "product_id") (.str "")
    product_name := jsOr (jsGetD row "product_name") (.str "Tanpa Nama")
    product_link := jsOr (jsGetD row "product_link") (.str fallbackLink)
    product_image := jsOr (jsGetD row "product_image") (.str "")
    lines := [] }

/-- Append one stock line to a bucket. -/
def pushBucketLine (b : CanonicalProduct) (l : StockLine) : CanonicalProduct :=
  { b with lines := b.lines ++ [l] }

/-- One `forEach` step of the flat branch's grouping over the `Map`.  The
accumulator is the map's entries in insertion order.  All rows reaching
this step passed the ready filter, so they are non-null and the pure
accessor `jsGetD` agrees with member access. -/
def updBucket (key row : JsVal) (kb : JsVal × CanonicalProduct) :
    JsVal × CanonicalProduct :=
  if kb.1 == key then (kb.1, pushBucketLine kb.2 (mkFlatLine row kb.2.product_link))
  else kb

def groupStep (sw : JsVal) (acc : List (JsVal × CanonicalProduct)) (row : JsVal) :
    List (JsVal × CanonicalProduct) :=
  let key := flatKey row
  let acc1 := if acc.any (fun kb => kb.1 == key) then acc
              else acc ++ [(key, mkBucket sw row)]
  acc1.map (updBucket key row)

/-- The flat branch: group the ready rows, then `Array.from(grouped.values())`. -/
def groupRows (sw : JsVal) (rows : List JsVal) : List CanonicalProduct :=
  (rows.foldl (groupStep sw) []).map Prod.snd

/-- `normalizeProducts(payload)` (variant 1).  `none` models the
`TypeError` thrown on a `null` member-access receiver. -/
def normalizeProducts (payload : JsVal) : Option (List CanonicalProduct) := do
  let sw := sourceWebsite payload
  let productsField ← jsGet payload "products"
  match productsField with
  | .arr ps => do
      let kept ← filterOpt readyNestedM ps
      mapOpt (mkNestedProductM sw) kept
  | _ => do
      let itemsField ← jsGet payload "items"
      match itemsField with
      | .arr rows => do
          let kept ← filterOpt readyRowM rows
          pure (groupRows sw kept)
      | _ => pure []

/-! ### Variant 1: filter and summary -/

/-- `.toLowerCase()` as a method call: only strings have it; calling it on
any other value throws. -/
def jsToLowerM : JsVal → Option String
  | .str s => some (strLower s)
  | _ => none

/-- The per-line search haystack of variant 1's `applyFilter`:
`` `${line.variation_inline || ""} ${line.sku || ""} ${line.stock ?? ""}` ``
lower-cased. -/
def lineHaystack (l : StockLine) : String :=
  strLower (jsToString (jsOr (.str l.variation_inline) (.str "")) ++ " " ++
    jsToString (jsOr l.sku (.str "")) ++ " " ++
    jsToString (jsCoalesce l.stock (.str "")))

/-- Variant 1's per-product filter predicate.  The name test
`(product.product_name || "").toLowerCase()` throws when the defaulted
name is not a string. -/
def productMatchesM (q : String) (p : CanonicalProduct) : Option Bool := do
  let nameLower ← jsToLowerM (jsOr p.product_name (.str ""))
  if strIncludes nameLower q then pure true
  else pure (p.lines.any (fun l => strIncludes (lineHaystack l) q))

/-- Variant 1's `applyFilter` core: trim the input, lower-case it, and
keep every product when the query is empty. -/
def applyFilterV1 (input : String) (products : List CanonicalProduct) :
    Option (List CanonicalProduct) :=
  let rawQuery := strTrim input
  let q := strLower rawQuery
  if q = "" then some products
  else filterOpt (productMatchesM q) products

/-- `typeof v === "number" ? v : 0`. -/
def stockNum : JsVal → Int
  | .num n => n
  | _ => 0

/-- `updateSummary(items)` (variant 1): the three counters as displayed
(distinct products, total rows, total quantity). -/
def updateSummary (items : List CanonicalProduct) : Nat × Nat × Int :=
  (items.length,
   items.foldl (fun sum item => sum + item.lines.length) 0,
   items.foldl (fun sum item =>
     sum + item.lines.foldl (fun inner l => inner + stockNum l.stock) 0) 0)

/-- One search-input event of variant 1: `applyFilter` recomputes the
visible list, renders it, and calls `updateSummary` on that same list. -/
def filterEventV1 (products : List CanonicalProduct) (input : String) :
    Option (List CanonicalProduct × (Nat × Nat × Int)) := do
  let filtered ← applyFilterV1 input products
  pure (filtered, updateSummary filtered)

/-! ### Variant 2: `normalizeRows`, filter, and load-time counters -/

/-- One row pushed by variant 2's nested branch. -/
def rowOfStockM (productId productName : JsVal) (st : JsVal) : Option JsVal := do
  let sku ← jsGet st "sku"
  let stk ← jsGet st "stock"
  let wh ← jsGet st "warehouse_id"
  let vars ← jsGet st "variations"
  let vtext := match vars with
    | .arr l => jsonStringify (.arr l)
    | _ => ""
  pure (.obj [("product_id", productId), ("product_name", productName),
              ("sku", sku), ("stock", stk), ("warehouse_id", wh),
              ("variation_text", .str vtext)])

/-- Variant 2's per-product body: default the id and name, apply the ready
gate, then push one row per stock entry. -/
def rowsOfProductM (pr : JsVal) : Option (List JsVal) := do
  let pid ← jsGet pr "product_id"
  let pid2 ← jsGet pr "id"
  let pname ← jsGet pr "product_name"
  let pname2 ← jsGet pr "name"
  let productId := jsOr pid (jsOr pid2 (.str ""))
  let productName := jsOr pname (jsOr pname2 (.str "Tanpa Nama"))
  if isReadyProductName productName then do
    let stocksRaw ← jsGet pr "stocks"
    let stocks := match stocksRaw with | .arr l => l | _ => []
    mapOpt (rowOfStockM productId productName) stocks
  else pure []

/-- `normalizeRows(payload)` (variant 2).  Note the `items` check comes
first in this variant. -/
def normalizeRows (payload : JsVal) : Option (List JsVal) := do
  let itemsField ← jsGet payload "items"
  match itemsField with
  | .arr rows => filterOpt readyRowM rows
  | _ => do
      let productsField ← jsGet payload "products"
      match productsField with
      | .arr ps => do
          let ls ← mapOpt rowsOfProductM ps
          pure (flatMapList id ls)
      | _ => pure []

/-- The per-row haystack of variant 2's `applyFilter`:
`` `${row.product_name || ""} ${row.sku || ""} ${row.variation_text || ""}` ``
lower-cased.  The row's `stock` is not part of it. -/
def rowHaystackM (row : JsVal) : Option String := do
  let pn ← jsGet row "product_name"
  let sk ← jsGet row "sku"
  let vt ← jsGet row "variation_text"
  pure (strLower (jsToString (jsOr pn (.str "")) ++ " " ++
    jsToString (jsOr sk (.str "")) ++ " " ++ jsToString (jsOr vt (.str ""))))

/-- Variant 2's `applyFilter` core: the visible row list (rendering only;
this function never touches the summary counters). -/
def applyFilterV2 (input : String) (rows : List JsVal) : Option (List JsVal) :=
  let q := strLower (strTrim input)
  if q = "" then some rows
  else filterOpt (fun r => (rowHaystackM r).map (fun h => strIncludes h q)) rows

/-- The grouping key variant 2 uses for its distinct-product counter. -/
def rowKeyM (row : JsVal) : Option JsVal := do
  let pid ← jsGet row "product_id"
  let pn ← jsGet row "product_name"
  pure (jsOr pid (jsOr pn (.str "")))

/-- The summary counters variant 2 computes inside `loadData`, over the
full normalized row list: `new Set(rows.map(...)).size`, `rows.length`,
and the numeric stock sum. -/
def loadCountersV2 (rows : List JsVal) : Option (Nat × Nat × Int) := do
  let keys ← mapOpt rowKeyM rows
  let stocks ← mapOpt (fun r => jsGet r "stock") rows
  pure (keys.eraseDups.length, rows.length,
        stocks.foldl (fun sum v => sum + stockNum v) 0)

/-- The variant 2 dashboard state after a successful `loadData`: the
normalized rows, the three displayed counters, and the rendered subset. -/
structure V2State where
  rows : List JsVal
  counters : Nat × Nat × Int
  visible : List JsVal
deriving DecidableEq, Repr

/-- `loadData` (variant 2): normalize, set the counters from the full row
list, then render through `applyFilter`. -/
def loadDataV2 (payload : JsVal) (initialQuery : String) : Option V2State := do
  let rows ← normalizeRows payload
  let counters ← loadCountersV2 rows
  let visible ← applyFilterV2 initialQuery rows
  pure ⟨rows, counters, visible⟩

/-- One search-input event of variant 2: `applyFilter` re-renders the
table; the counters are left untouched. -/
def filterEventV2 (st : V2State) (input : String) : Option V2State := do
  let visible ← applyFilterV2 input st.rows
  pure { st with visible := visible }

/-! ### Total counterparts of the gates (agreeing with the monadic ones on
non-null receivers) and small derived definitions -/

/-- The nested ready gate on a non-null product. -/
def readyNestedD (pr : JsVal) : Bool :=
  isReadyProductName (jsOr (jsGetD pr "product_name") (jsGetD pr "name"))

/-- The flat ready gate on a non-null row. -/
def readyRowD (row : JsVal) : Bool := isReadyProductName (jsGetD row "product_name")

/-- Total row count of a canonical product list (what the dashboard calls
"total rows"). -/
def totalLines (items : List CanonicalProduct) : Nat :=
  (items.map (fun p => p.lines.length)).sum

/-! ### Lemmas: Option-monad list helpers -/

theorem mapOpt_cons {f : α → Option β} {a : α} {l : List α} :
    mapOpt f (a :: l) = (f a).bind (fun b => (mapOpt f l).bind (fun rest => some (b :: rest))) := rfl

theorem filterOpt_cons {f : α → Option Bool} {a : α} {l : List α} :
    filterOpt f (a :: l) =
      (f a).bind (fun keep => (filterOpt f l).bind
        (fun rest => some (if keep then a :: rest else rest))) := rfl

theorem mapOpt_length {f : α → Option β} {l : List α} {out : List β}
    (h : mapOpt f l = some out) : out.length = l.length := by
  induction l generalizing out with
  | nil =>
    simp only [mapOpt, Option.some_inj] at h
    subst h; rfl
  | cons a l ih =>
    rw [mapOpt_cons] at h
    simp only [Option.bind_eq_some, Option.some_inj] at h
    obtain ⟨b, _, rest, hrest, hout⟩ := h
    subst hout
    simp [ih hrest]

theorem mapOpt_mem {f : α → Option β} {l : List α} {out : List β}
    (h : mapOpt f l = some out) {b : β} (hb : b ∈ out) : ∃ a ∈ l, f a = some b := by
  induction l generalizing out with
  | nil =>
    simp only [mapOpt, Option.some_inj] at h
    subst h; cases hb
  | cons a l ih =>
    rw [mapOpt_cons] at h
    simp only [Option.bind_eq_some, Option.some_inj] at h
    obtain ⟨b0, hb0, rest, hrest, hout⟩ := h
    subst hout
    rcases List.mem_cons.mp hb with rfl | hmem
    · exact ⟨a, List.mem_cons_self a l, hb0⟩
    · obtain ⟨a', ha', hfa'⟩ := ih hrest hmem
      exact ⟨a', List.mem_cons_of_mem a ha', hfa'⟩

theorem mapOpt_eq_of_forall {f : α → Option β} {g : α → β} {l : List α}
    (h : ∀ a ∈ l, f a = some (g a)) : mapOpt f l = some (l.map g) := by
  induction l with
  | nil => rfl
  | cons a l ih =>
    rw [mapOpt_cons, h a (List.mem_cons_self a l),
      ih (fun a' ha' => h a' (List.mem_cons_of_mem a ha'))]
    rfl

theorem mapOpt_eq_none_of_mem {f : α → Option β} {l : List α} {a : α}
    (ha : a ∈ l) (hf : f a = none) : mapOpt f l = none := by
  induction l with
  | nil => cases ha
  | cons x l ih =>
    rw [mapOpt_cons]
    rcases List.mem_cons.mp ha with rfl | hmem
    · rw [hf]; rfl
    · cases hx : f x with
      | none => rfl
      | some b => simp [ih hmem]

theorem filterOpt_mem {f : α → Option Bool} {l : List α} {out : List α}
    (h : filterOpt f l = some out) {x : α} (hx : x ∈ out) :
    x ∈ l ∧ f x = some true := by
  induction l generalizing out with
  | nil =>
    simp only [filterOpt, Option.some_inj] at h
    subst h; cases hx
  | cons a l ih =>
    rw [filterOpt_cons] at h
    simp only [Option.bind_eq_some, Option.some_inj] at h
    obtain ⟨keep, hkeep, rest, hrest, hout⟩ := h
    subst hout
    cases keep with
    | true =>
      rcases List.mem_cons.mp hx with rfl | hmem
      · exact ⟨List.mem_cons_self x l, hkeep⟩
      · obtain ⟨h1, h2⟩ := ih hrest hmem
        exact ⟨List.mem_cons_of_mem a h1, h2⟩
    | false =>
      obtain ⟨h1, h2⟩ := ih hrest hx
      exact ⟨List.mem_cons_of_mem a h1, h2⟩

theorem filterOpt_eq_of_forall {f : α → Option Bool} {g : α → Bool} {l : List α}
    (h : ∀ a ∈ l, f a = some (g a)) : filterOpt f l = some (l.filter g) := by
  induction l with
  | nil => rfl
  | cons a l ih =>
    rw [filterOpt_cons, h a (List.mem_cons_self a l),
      ih (fun a' ha' => h a' (List.mem_cons_of_mem a ha'))]
    cases hg : g a <;> simp [List.filter_cons, hg]

theorem filterOpt_eq_none_of_mem {f : α → Option Bool} {l : List α} {a : α}
    (ha : a ∈ l) (hf : f a = none) : filterOpt f l = none := by
  induction l with
  | nil => cases ha
  | cons x l ih =>
    rw [filterOpt_cons]
    rcases List.mem_cons.mp ha with rfl | hmem
    · rw [hf]; rfl
    · cases hx : f x with
      | none => rfl
      | some b => simp [ih hmem]

theorem filterOpt_arg_isSome {f : α → Option Bool} {l : List α} {out : List α}
    (h : filterOpt f l = some out) {x : α} (hx : x ∈ l) : (f x).isSome := by
  cases hfx : f x with
  | none => rw [filterOpt_eq_none_of_mem hx hfx] at h; cases h
  | some b => rfl

theorem filterOpt_mem_of_kept {f : α → Option Bool} {l : List α} {out : List α}
    (h : filterOpt f l = some out) {x : α} (hx : x ∈ l) (hfx : f x = some true) :
    x ∈ out := by
  induction l generalizing out with
  | nil => cases hx
  | cons a l ih =>
    rw [filterOpt_cons] at h
    simp only [Option.bind_eq_some, Option.some_inj] at h
    obtain ⟨keep, hkeep, rest, hrest, hout⟩ := h
    subst hout
    rcases List.mem_cons.mp hx with rfl | hmem
    · rw [hfx] at hkeep
      cases hkeep
      exact List.mem_cons_self x rest
    · cases keep with
      | true => exact List.mem_cons_of_mem a (ih hrest hmem)
      | false => exact ih hrest hmem

/-! ### Lemmas: accessors, truthiness, the ready gate -/

theorem jsGet_of_ne_null {v : JsVal} (h : v ≠ .null) (k : String) :
    jsGet v k = some (jsGetD v k) := by
  cases v
  case null => exact absurd rfl h
  all_goals rfl

theorem jsOr_of_truthy {a b : JsVal} (h : a.truthy = true) : jsOr a b = a := by
  simp [jsOr, h]

theorem jsOr_of_not_truthy {a b : JsVal} (h : a.truthy = false) : jsOr a b = b := by
  simp [jsOr, h]

/-- A value whose stringification (after `|| ""`) carries the ready marker
is truthy: falsy values all default to the empty string first. -/
theorem truthy_of_isReady {v : JsVal} (h : isReadyProductName v = true) :
    v.truthy = true := by
  by_contra hc
  simp only [Bool.not_eq_true] at hc
  rw [isReadyProductName, jsOr_of_not_truthy hc] at h
  exact absurd h (by decide)

theorem readyNestedM_of_ne_null {pr : JsVal} (h : pr ≠ .null) :
    readyNestedM pr = some (readyNestedD pr) := by
  simp [readyNestedM, jsGet_of_ne_null h, readyNestedD]

theorem readyRowM_of_ne_null {row : JsVal} (h : row ≠ .null) :
    readyRowM row = some (readyRowD row) := by
  simp [readyRowM, jsGet_of_ne_null h, readyRowD]

theorem ne_null_of_readyNestedM {pr : JsVal} {b : Bool}
    (h : readyNestedM pr = some b) : pr ≠ .null := by
  rintro rfl; cases h

theorem ne_null_of_readyRowM {row : JsVal} {b : Bool}
    (h : readyRowM row = some b) : row ≠ .null := by
  rintro rfl; cases h

/-! ### `escapeHtml`: character-level analysis -/

/-- One `replaceAll` step at the character-list level. -/
def replL (p : Char) (r : List Char) (l : List Char) : List Char :=
  flatMapList (fun c => if c = p then r else [c]) l

/-- The five chained `replaceAll` steps of `escapeHtml`, at list level. -/
def escL (l : List Char) : List Char :=
  replL '\'' "&#039;".toList (replL '"' "&quot;".toList (replL '>' "&gt;".toList
    (replL '<' "&lt;".toList (replL '&' "&amp;".toList l))))

/-- What one source character contributes to `escapeHtml`'s output. -/
def escBlock (c : Char) : List Char :=
  if c = '&' then "&amp;".toList
  else if c = '<' then "&lt;".toList
  else if c = '>' then "&gt;".toList
  else if c = '"' then "&quot;".toList
  else if c = '\'' then "&#039;".toList
  else [c]

/-- The tails of the five entities `escapeHtml` can emit after `&`. -/
def entityTails : List (List Char) := ["amp;".toList, "lt;".toList, "gt;".toList,
  "quot;".toList, "#039;".toList]

/-- The claim's safety scan: no raw `<`, `>`, `"` or `'` anywhere, and
every `&` immediately followed by one of the five entity tails. -/
def escOk : List Char → Bool
  | [] => true
  | c :: rest =>
    (if c = '&' then entityTails.any (fun e => e.isPrefixOf rest)
     else decide (c ∉ ['<', '>', '"', '\''])) && escOk rest

theorem flatMapList_append (f : α → List β) (l1 l2 : List α) :
    flatMapList f (l1 ++ l2) = flatMapList f l1 ++ flatMapList f l2 := by
  induction l1 with
  | nil => rfl
  | cons a l ih => simp [flatMapList, ih, List.append_assoc]

theorem replL_append (p : Char) (r : List Char) (l1 l2 : List Char) :
    replL p r (l1 ++ l2) = replL p r l1 ++ replL p r l2 :=
  flatMapList_append _ l1 l2

theorem flatMapList_id_map (g : α → List β) (l : List α) :
    flatMapList id (l.map g) = flatMapList g l := by
  induction l with
  | nil => rfl
  | cons a l ih => simp only [List.map_cons, flatMapList, ih, id]

theorem escL_append (l1 l2 : List Char) : escL (l1 ++ l2) = escL l1 ++ escL l2 := by
  simp [escL, replL_append]

theorem escL_singleton (c : Char) : escL [c] = escBlock c := by
  by_cases h1 : c = '&'
  · subst h1; rfl
  · by_cases h2 : c = '<'
    · subst h2; rfl
    · by_cases h3 : c = '>'
      · subst h3; rfl
      · by_cases h4 : c = '"'
        · subst h4; rfl
        · by_cases h5 : c = '\''
          · subst h5; rfl
          · simp [escL, replL, flatMapList, escBlock, h1, h2, h3, h4, h5]

theorem escL_eq_flatMap (l : List Char) : escL l = flatMapList escBlock l := by
  induction l with
  | nil => rfl
  | cons c l ih =>
    have : (c :: l) = [c] ++ l := rfl
    rw [this, escL_append, escL_singleton, ih]
    rfl

theorem escOk_block_append {c : Char} {rest : List Char} (h : escOk rest = true) :
    escOk (escBlock c ++ rest) = true := by
  by_cases h1 : c = '&'
  · subst h1; simp [escBlock, escOk, entityTails, List.isPrefixOf, h]
  · by_cases h2 : c = '<'
    · subst h2; simp [escBlock, escOk, entityTails, List.isPrefixOf, h]
    · by_cases h3 : c = '>'
      · subst h3; simp [escBlock, escOk, entityTails, List.isPrefixOf, h]
      · by_cases h4 : c = '"'
        · subst h4; simp [escBlock, escOk, entityTails, List.isPrefixOf, h]
        · by_cases h5 : c = '\''
          · subst h5; simp [escBlock, escOk, entityTails, List.isPrefixOf, h]
          · simp [escBlock, escOk, h1, h2, h3, h4, h5, h]

theorem escOk_escL (l : List Char) : escOk (escL l) = true := by
  rw [escL_eq_flatMap]
  induction l with
  | nil => rfl
  | cons c l ih => exact escOk_block_append ih

theorem escapeHtml_toList (v : JsVal) :
    (escapeHtml v).toList = escL (jsToString (jsCoalesce v (.str ""))).toList := rfl

theorem escOk_mem_not_banned {l : List Char} (h : escOk l = true) {c : Char}
    (hc : c ∈ l) : ¬(c = '<' ∨ c = '>' ∨ c = '"' ∨ c = '\'') := by
  induction l with
  | nil => cases hc
  | cons a l ih =>
    simp only [escOk, Bool.and_eq_true] at h
    rcases List.mem_cons.mp hc with rfl | hmem
    · rcases h with ⟨h1, _⟩
      by_cases ha : c = '&'
      · subst ha; decide
      · rw [if_neg ha, decide_eq_true_eq] at h1
        intro hor
        apply h1
        rcases hor with h | h | h | h <;> simp [h]
    · exact ih h.2 hmem

/-! ### `formatVariationInline`: when is the result empty? -/

/-- Every entry of a variations array renders to empty text. -/
def allEntriesBlank (xs : List JsVal) : Bool := xs.all (fun i => entryBrace i = "")

/-- The free-text branch collapses to nothing: the trimmed text is
non-empty, does not start with a brace, yet every comma-separated part
trims to empty (for example `","`). -/
def textSplitBlank (variationText : JsVal) : Bool :=
  let clean := strTrim (jsToString (jsOr variationText (.str "")))
  clean ≠ "" && !strStartsWith clean "\x7b" &&
    ((strSplitComma clean).map strTrim).all (fun p => p = "")

/-- The exact condition under which `formatVariationInline` returns `""`. -/
def fviEmptyCause (variations variationText : JsVal) : Bool :=
  match variations with
  | .arr (x :: xs) => allEntriesBlank (x :: xs)
  | _ => textSplitBlank variationText

theorem string_data_append (a b : String) : (a ++ b).data = a.data ++ b.data := by
  cases a; cases b; rfl

theorem string_append_eq_empty {a b : String} : a ++ b = "" ↔ a = "" ∧ b = "" := by
  cases a with | mk la =>
  cases b with | mk lb =>
  constructor
  · intro h
    have hd : la ++ lb = ([] : List Char) := congrArg String.data h
    rcases List.append_eq_nil.mp hd with ⟨h1, h2⟩
    exact ⟨by rw [h1], by rw [h2]⟩
  · rintro ⟨h1, h2⟩
    rw [h1, h2]; rfl

theorem braceWrap_ne_empty (p : String) : "\x7b" ++ p ++ "\x7d" ≠ "" := by
  intro h
  exact absurd (string_append_eq_empty.mp h).2 (by decide)

theorem joinStrs_eq_empty_iff {l : List String} : joinStrs l = "" ↔ ∀ x ∈ l, x = "" := by
  induction l with
  | nil => simp [joinStrs]
  | cons x l ih => simp [joinStrs, string_append_eq_empty, ih]

theorem joinStrs_filter_ne_eq_empty_iff {l : List String} :
    joinStrs (l.filter (fun x => x ≠ "")) = "" ↔ ∀ x ∈ l, x = "" := by
  rw [joinStrs_eq_empty_iff]
  constructor
  · intro h x hx
    by_contra hne
    exact hne (h x (List.mem_filter.mpr ⟨hx, by simpa using hne⟩))
  · intro h x hx
    exact h x (List.mem_filter.mp hx).1

theorem joinStrs_braced_eq_empty_iff {parts : List String} :
    joinStrs ((parts.filter (fun p => p ≠ "")).map (fun p => "\x7b" ++ p ++ "\x7d")) = "" ↔
      parts.all (fun p => p = "") = true := by
  rw [joinStrs_eq_empty_iff, List.all_eq_true]
  constructor
  · intro h p hp
    by_contra hne
    have hmem : p ∈ parts.filter (fun p => p ≠ "") :=
      List.mem_filter.mpr ⟨hp, by simpa using hne⟩
    exact braceWrap_ne_empty p (h _ (List.mem_map_of_mem _ hmem))
  · intro h x hx
    rcases List.mem_map.mp hx with ⟨p, hp, rfl⟩
    rcases List.mem_filter.mp hp with ⟨hp1, hp2⟩
    simp only [decide_eq_true_eq] at h
    exact absurd (h p hp1) (by simpa using hp2)

theorem variationFallback_eq_empty_iff (t s : JsVal) :
    (variationFallback t s = "") ↔ textSplitBlank t = true := by
  unfold variationFallback textSplitBlank
  by_cases h1 : strTrim (jsToString (jsOr t (.str ""))) = ""
  · apply iff_of_false
    · by_cases h2 : strTrim (jsToString (jsOr s (.str ""))) = ""
      · rw [if_neg (not_not_intro h1), if_neg (not_not_intro h2)]
        decide
      · rw [if_neg (not_not_intro h1), if_pos h2]
        intro h
        exact absurd (string_append_eq_empty.mp h).2 (by decide)
    · simp [h1]
  · by_cases h2 : strStartsWith (strTrim (jsToString (jsOr t (.str "")))) "\x7b" = true
    · apply iff_of_false
      · rw [if_pos h1, if_pos h2]
        exact h1
      · simp [h2]
    · rw [if_pos h1, if_neg h2, joinStrs_braced_eq_empty_iff]
      simp [h1, h2]

theorem fvi_eq_empty_iff (v t s : JsVal) :
    (formatVariationInline v t s = "") ↔ fviEmptyCause v t = true := by
  rcases v with _ | b | n | sq | es | fs
  case arr =>
    rcases es with _ | ⟨x, xs⟩
    · exact variationFallback_eq_empty_iff t s
    · show (joinStrs (((x :: xs).map entryBrace).filter (fun s => s ≠ "")) = "") ↔ _
      rw [joinStrs_filter_ne_eq_empty_iff]
      simp only [fviEmptyCause, allEntriesBlank, List.all_eq_true, List.mem_map,
        decide_eq_true_eq]
      constructor
      · intro h i hi
        exact h _ ⟨i, hi, rfl⟩
      · rintro h x ⟨i, hi, rfl⟩
        exact h i hi
  all_goals exact variationFallback_eq_empty_iff t s


/-! ### The flat-branch grouping: first-wins fields, line provenance -/

theorem pushBucketLine_product_link (b : CanonicalProduct) (l : StockLine) :
    (pushBucketLine b l).product_link = b.product_link := rfl

theorem pushBucketLine_lines (b : CanonicalProduct) (l : StockLine) :
    (pushBucketLine b l).lines = b.lines ++ [l] := rfl

theorem updBucket_fst (key row : JsVal) (kb : JsVal × CanonicalProduct) :
    (updBucket key row kb).1 = kb.1 := by
  unfold updBucket
  split <;> rfl

theorem updBucket_of_eq {k : JsVal} {b : JsVal × CanonicalProduct} (row : JsVal)
    (h : b.1 = k) :
    updBucket k row b = (b.1, pushBucketLine b.2 (mkFlatLine row b.2.product_link)) := by
  unfold updBucket
  rw [if_pos (beq_iff_eq.mpr h)]

theorem updBucket_of_ne {k : JsVal} {b : JsVal × CanonicalProduct} (row : JsVal)
    (h : ¬b.1 = k) : updBucket k row b = b := by
  unfold updBucket
  rw [if_neg (fun hc => h (beq_iff_eq.mp hc))]

theorem bucket_eta_push {b : CanonicalProduct} {sw r0 : JsVal} {l : StockLine}
    (h : b = { mkBucket sw r0 with lines := b.lines }) :
    pushBucketLine b l = { mkBucket sw r0 with lines := (pushBucketLine b l).lines } := by
  rcases b with ⟨i, n, lk, im, ls⟩
  simp only [CanonicalProduct.mk.injEq, pushBucketLine] at h ⊢
  exact ⟨h.1, h.2.1, h.2.2.1, h.2.2.2.1, trivial⟩

theorem find?_append_of_some {p : α → Bool} {l1 : List α} {x : α} (l2 : List α)
    (h : l1.find? p = some x) : (l1 ++ l2).find? p = some x := by
  induction l1 with
  | nil => cases h
  | cons a l ih =>
    cases hpa : p a with
    | true => simp only [List.cons_append, List.find?_cons, hpa] at h ⊢; exact h
    | false =>
      simp only [List.cons_append, List.find?_cons, hpa] at h ⊢
      exact ih h

theorem find?_append_of_none {p : α → Bool} {l1 : List α} (l2 : List α)
    (h : l1.find? p = none) : (l1 ++ l2).find? p = l2.find? p := by
  induction l1 with
  | nil => rfl
  | cons a l ih =>
    cases hpa : p a with
    | true => simp [List.find?_cons, hpa] at h
    | false =>
      simp only [List.cons_append, List.find?_cons, hpa] at h ⊢
      exact ih h

/-- The invariant the flat-branch grouping fold maintains: every processed
row has a bucket for its key; every bucket's product-level fields come from
the first processed row with its key (first-wins); every bucket's lines are
the processed rows with its key, in order, rendered against the bucket's
fixed link. -/
def GoodAcc (sw : JsVal) (rows : List JsVal) (acc : List (JsVal × CanonicalProduct)) : Prop :=
  (∀ r ∈ rows, ∃ kb ∈ acc, kb.1 = flatKey r) ∧
  (∀ kb ∈ acc, ∃ r0 ∈ rows, rows.find? (fun r => flatKey r == kb.1) = some r0 ∧
      kb.2 = { mkBucket sw r0 with lines := kb.2.lines }) ∧
  (∀ kb ∈ acc, kb.2.lines =
      (rows.filter (fun r => flatKey r == kb.1)).map (fun r => mkFlatLine r kb.2.product_link))

theorem goodAcc_nil (sw : JsVal) : GoodAcc sw [] [] := by
  refine ⟨?_, ?_, ?_⟩ <;> intro x hx <;> cases hx

theorem goodAcc_step {sw : JsVal} {rows : List JsVal} {acc : List (JsVal × CanonicalProduct)}
    (h : GoodAcc sw rows acc) (r : JsVal) :
    GoodAcc sw (rows ++ [r]) (groupStep sw acc r) := by
  obtain ⟨hcover, hfields, hlines⟩ := h
  simp only [groupStep]
  by_cases hmatch : acc.any (fun kb => kb.1 == flatKey r)
  · rw [if_pos hmatch]
    refine ⟨?_, ?_, ?_⟩
    · intro r' hr'
      rcases List.mem_append.mp hr' with hr' | hr'
      · obtain ⟨kb, hkb, hkey⟩ := hcover r' hr'
        exact ⟨updBucket (flatKey r) r kb, List.mem_map_of_mem _ hkb,
          by rw [updBucket_fst]; exact hkey⟩
      · rw [List.mem_singleton.mp hr']
        rcases List.any_eq_true.mp hmatch with ⟨kb, hkb, hk⟩
        exact ⟨updBucket (flatKey r) r kb, List.mem_map_of_mem _ hkb,
          by rw [updBucket_fst]; exact beq_iff_eq.mp hk⟩
    · intro kb' hkb'
      rcases List.mem_map.mp hkb' with ⟨kb, hkb, rfl⟩
      obtain ⟨r0, hr0mem, hr0find, hr0eq⟩ := hfields kb hkb
      have hfindext := find?_append_of_some (p := fun r' => flatKey r' == kb.1) [r] hr0find
      by_cases hk : kb.1 = flatKey r
      · rw [updBucket_of_eq r hk]
        exact ⟨r0, List.mem_append_left _ hr0mem, hfindext, bucket_eta_push hr0eq⟩
      · rw [updBucket_of_ne r hk]
        exact ⟨r0, List.mem_append_left _ hr0mem, hfindext, hr0eq⟩
    · intro kb' hkb'
      rcases List.mem_map.mp hkb' with ⟨kb, hkb, rfl⟩
      by_cases hk : kb.1 = flatKey r
      · rw [updBucket_of_eq r hk]
        have hpred : (flatKey r == kb.1) = true := beq_iff_eq.mpr hk.symm
        simp only [pushBucketLine_lines, pushBucketLine_product_link, List.filter_append,
          List.map_append, List.filter_cons, hpred, hlines kb hkb]
        simp
      · rw [updBucket_of_ne r hk]
        have hpred : (flatKey r == kb.1) = false := by
          rw [beq_eq_false_iff_ne]
          exact fun hc => hk hc.symm
        simp only [List.filter_append, List.map_append, List.filter_cons, hpred]
        simp [hlines kb hkb]
  · rw [if_neg hmatch]
    have hnew : ∀ r' ∈ rows, (flatKey r' == flatKey r) = false := by
      intro r' hr'
      rw [beq_eq_false_iff_ne]
      intro hc
      obtain ⟨kb, hkb, hkey⟩ := hcover r' hr'
      exact hmatch (List.any_eq_true.mpr ⟨kb, hkb, beq_iff_eq.mpr (hkey.trans hc)⟩)
    refine ⟨?_, ?_, ?_⟩
    · intro r' hr'
      rcases List.mem_append.mp hr' with hr' | hr'
      · obtain ⟨kb, hkb, hkey⟩ := hcover r' hr'
        exact ⟨updBucket (flatKey r) r kb,
          List.mem_map_of_mem _ (List.mem_append_left _ hkb),
          by rw [updBucket_fst]; exact hkey⟩
      · rw [List.mem_singleton.mp hr']
        exact ⟨updBucket (flatKey r) r (flatKey r, mkBucket sw r),
          List.mem_map_of_mem _ (List.mem_append_right _ (List.mem_singleton.mpr rfl)),
          by rw [updBucket_fst]⟩
    · intro kb' hkb'
      rcases List.mem_map.mp hkb' with ⟨kb, hkb, rfl⟩
      rcases List.mem_append.mp hkb with hkb | hkb
      · obtain ⟨r0, hr0mem, hr0find, hr0eq⟩ := hfields kb hkb
        have hfindext := find?_append_of_some (p := fun r' => flatKey r' == kb.1) [r] hr0find
        by_cases hk : kb.1 = flatKey r
        · rw [updBucket_of_eq r hk]
          exact ⟨r0, List.mem_append_left _ hr0mem, hfindext, bucket_eta_push hr0eq⟩
        · rw [updBucket_of_ne r hk]
          exact ⟨r0, List.mem_append_left _ hr0mem, hfindext, hr0eq⟩
      · rw [List.mem_singleton.mp hkb,
          updBucket_of_eq (k := flatKey r) (b := (flatKey r, mkBucket sw r)) r rfl]
        refine ⟨r, List.mem_append_right _ (List.mem_singleton.mpr rfl), ?_, rfl⟩
        have hnone : rows.find? (fun r' => flatKey r' == flatKey r) = none := by
          rw [List.find?_eq_none]
          intro r' hr'
          simp [hnew r' hr']
        rw [find?_append_of_none _ hnone]
        simp [List.find?_cons]
    · intro kb' hkb'
      rcases List.mem_map.mp hkb' with ⟨kb, hkb, rfl⟩
      rcases List.mem_append.mp hkb with hkb | hkb
      · by_cases hk : kb.1 = flatKey r
        · have hany : acc.any (fun kb => kb.1 == flatKey r) = true :=
            List.any_eq_true.mpr ⟨kb, hkb, beq_iff_eq.mpr hk⟩
          exact absurd hany hmatch
        · rw [updBucket_of_ne r hk]
          have hpred : (flatKey r == kb.1) = false := by
            rw [beq_eq_false_iff_ne]
            exact fun hc => hk hc.symm
          simp only [List.filter_append, List.map_append, List.filter_cons, hpred]
          simp [hlines kb hkb]
      · rw [List.mem_singleton.mp hkb,
          updBucket_of_eq (k := flatKey r) (b := (flatKey r, mkBucket sw r)) r rfl]
        have hfilter : rows.filter (fun r' => flatKey r' == flatKey r) = [] :=
          List.filter_eq_nil_iff.mpr (fun r' hr' => by simp [hnew r' hr'])
        simp only [pushBucketLine_lines, pushBucketLine_product_link, List.filter_append,
          hfilter, List.filter_cons]
        simp [mkBucket]

theorem goodAcc_fold (sw : JsVal) (rows : List JsVal) :
    GoodAcc sw rows (rows.foldl (groupStep sw) []) := by
  induction rows using List.reverseRecOn with
  | nil => exact goodAcc_nil sw
  | append_singleton l r ih =>
    rw [List.foldl_append]
    exact goodAcc_step ih r

/-! ### Pure views of the nested branch (on non-null receivers) -/

/-- `product.product_id || product.id || ""`. -/
def nestedProductId (pr : JsVal) : JsVal :=
  jsOr (jsGetD pr "product_id") (jsOr (jsGetD pr "id") (.str ""))

/-- `product.product_name || product.name || "Tanpa Nama"`. -/
def nestedProductName (pr : JsVal) : JsVal :=
  jsOr (jsGetD pr "product_name") (jsOr (jsGetD pr "name") (.str "Tanpa Nama"))

/-- `product.product_slug || product.slug || ""`. -/
def nestedProductSlug (pr : JsVal) : JsVal :=
  jsOr (jsGetD pr "product_slug") (jsOr (jsGetD pr "slug") (.str ""))

/-- `product.product_link || buildProductLink(...)`. -/
def nestedProductLink (sw pr : JsVal) : JsVal :=
  jsOr (jsGetD pr "product_link")
    (.str (buildProductLink sw (nestedProductId pr) (nestedProductSlug pr)))

/-- `Array.isArray(product.stocks) ? product.stocks : []`. -/
def stocksOfD (pr : JsVal) : List JsVal :=
  match jsGetD pr "stocks" with
  | .arr l => l
  | _ => []

/-- The stock line built from a non-null stock entry. -/
def mkNestedLine (productLink st : JsVal) : StockLine :=
  { variation_inline := formatVariationInline (jsGetD st "variations")
      (jsGetD st "variation_text") (jsGetD st "sku")
    stock := jsGetD st "stock"
    sku := jsGetD st "sku"
    link := productLink }

/-- Variant 2's defaulted product name, `... || "Tanpa Nama"`. -/
def readyV2D (pr : JsVal) : Bool := isReadyProductName (nestedProductName pr)

/-- `Array.isArray`. -/
def isArrB : JsVal → Bool
  | .arr _ => true
  | _ => false

theorem lineOfStockM_of_ne_null {link st : JsVal} (h : st ≠ .null) :
    lineOfStockM link st = some (mkNestedLine link st) := by
  simp [lineOfStockM, jsGet_of_ne_null h, mkNestedLine]

theorem lineOfStockM_null (link : JsVal) : lineOfStockM link .null = none := rfl

theorem mkNestedProductM_of_ne_null {sw pr : JsVal} (h : pr ≠ .null) :
    mkNestedProductM sw pr =
      (mapOpt (lineOfStockM (nestedProductLink sw pr)) (stocksOfD pr)).bind
        (fun lines => some
          { product_id := nestedProductId pr
            product_name := nestedProductName pr
            product_link := nestedProductLink sw pr
            product_image := jsOr (jsGetD pr "product_image") (.str "")
            lines := lines }) := by
  simp only [mkNestedProductM, jsGet_of_ne_null h, Option.some_bind]
  rfl

theorem mkNestedProductM_null (sw : JsVal) : mkNestedProductM sw .null = none := rfl

/-! ### Branch lemmas for the two normalizers -/

theorem normalizeProducts_null : normalizeProducts .null = none := rfl

theorem normalizeRows_null : normalizeRows .null = none := rfl

theorem normalizeProducts_nested {payload : JsVal} {ps : List JsVal}
    (h : jsGet payload "products" = some (.arr ps)) :
    normalizeProducts payload = (filterOpt readyNestedM ps).bind
      (fun kept => mapOpt (mkNestedProductM (sourceWebsite payload)) kept) := by
  unfold normalizeProducts
  rw [h]
  rfl

theorem normalizeProducts_flat {payload pv : JsVal} {rows : List JsVal}
    (h1 : jsGet payload "products" = some pv) (h2 : isArrB pv = false)
    (h3 : jsGet payload "items" = some (.arr rows)) :
    normalizeProducts payload = (filterOpt readyRowM rows).bind
      (fun kept => some (groupRows (sourceWebsite payload) kept)) := by
  unfold normalizeProducts
  rw [h1]
  cases pv
  case arr => simp [isArrB] at h2
  all_goals (rw [h3]; rfl)

theorem normalizeProducts_neither {payload pv iv : JsVal}
    (h1 : jsGet payload "products" = some pv) (h2 : isArrB pv = false)
    (h3 : jsGet payload "items" = some iv) (h4 : isArrB iv = false) :
    normalizeProducts payload = some [] := by
  unfold normalizeProducts
  rw [h1]
  cases pv
  case arr => simp [isArrB] at h2
  all_goals rw [h3]
  all_goals (cases iv <;> first | rfl | simp [isArrB] at h4)

theorem normalizeRows_items {payload : JsVal} {rows : List JsVal}
    (h : jsGet payload "items" = some (.arr rows)) :
    normalizeRows payload = filterOpt readyRowM rows := by
  unfold normalizeRows
  rw [h]
  rfl

theorem normalizeRows_products {payload iv : JsVal} {ps : List JsVal}
    (h1 : jsGet payload "items" = some iv) (h2 : isArrB iv = false)
    (h3 : jsGet payload "products" = some (.arr ps)) :
    normalizeRows payload = (mapOpt rowsOfProductM ps).bind
      (fun ls => some (flatMapList id ls)) := by
  unfold normalizeRows
  rw [h1]
  cases iv
  case arr => simp [isArrB] at h2
  all_goals (rw [h3]; rfl)

theorem normalizeRows_neither {payload iv pv : JsVal}
    (h1 : jsGet payload "items" = some iv) (h2 : isArrB iv = false)
    (h3 : jsGet payload "products" = some pv) (h4 : isArrB pv = false) :
    normalizeRows payload = some [] := by
  unfold normalizeRows
  rw [h1]
  cases iv
  case arr => simp [isArrB] at h2
  all_goals rw [h3]
  all_goals (cases pv <;> first | rfl | simp [isArrB] at h4)

/-- The row object variant 2 pushes for one stock entry of a ready
product. -/
def mkV2Row (productId productName st : JsVal) : JsVal :=
  .obj [("product_id", productId), ("product_name", productName),
        ("sku", jsGetD st "sku"), ("stock", jsGetD st "stock"),
        ("warehouse_id", jsGetD st "warehouse_id"),
        ("variation_text", .str (match jsGetD st "variations" with
          | .arr l => jsonStringify (.arr l)
          | _ => ""))]

theorem rowOfStockM_of_ne_null {pid pname st : JsVal} (h : st ≠ .null) :
    rowOfStockM pid pname st = some (mkV2Row pid pname st) := by
  simp [rowOfStockM, jsGet_of_ne_null h, mkV2Row]

theorem rowOfStockM_null (pid pname : JsVal) : rowOfStockM pid pname .null = none := rfl

theorem rowsOfProductM_of_ne_null {pr : JsVal} (h : pr ≠ .null) :
    rowsOfProductM pr =
      if readyV2D pr then
        mapOpt (rowOfStockM (nestedProductId pr) (nestedProductName pr)) (stocksOfD pr)
      else some [] := by
  unfold rowsOfProductM
  rw [jsGet_of_ne_null h "product_id", jsGet_of_ne_null h "id",
    jsGet_of_ne_null h "product_name", jsGet_of_ne_null h "name",
    jsGet_of_ne_null h "stocks"]
  rfl

theorem rowsOfProductM_null : rowsOfProductM .null = none := rfl

/-! ### Exactly when the normalizers throw -/

theorem mapOpt_isSome_iff {f : α → Option β} {l : List α} :
    (mapOpt f l).isSome = true ↔ ∀ a ∈ l, (f a).isSome = true := by
  induction l with
  | nil => simp [mapOpt]
  | cons a l ih =>
    rw [mapOpt_cons]
    constructor
    · intro h x hx
      cases hfa : f a with
      | none => rw [hfa] at h; cases h
      | some b =>
        rcases List.mem_cons.mp hx with rfl | hmem
        · rw [hfa]; rfl
        · rw [hfa, Option.some_bind] at h
          cases hml : mapOpt f l with
          | none => rw [hml] at h; cases h
          | some out => exact ih.mp (by rw [hml]; rfl) x hmem
    · intro h
      rcases Option.isSome_iff_exists.mp (h a (List.mem_cons_self a l)) with ⟨b, hb⟩
      rcases Option.isSome_iff_exists.mp
        (ih.mpr (fun x hx => h x (List.mem_cons_of_mem a hx))) with ⟨out, hout⟩
      rw [hb, Option.some_bind, hout, Option.some_bind]
      rfl

theorem filterOpt_isSome_iff {f : α → Option Bool} {l : List α} :
    (filterOpt f l).isSome = true ↔ ∀ a ∈ l, (f a).isSome = true := by
  induction l with
  | nil => simp [filterOpt]
  | cons a l ih =>
    rw [filterOpt_cons]
    constructor
    · intro h x hx
      cases hfa : f a with
      | none => rw [hfa] at h; cases h
      | some b =>
        rcases List.mem_cons.mp hx with rfl | hmem
        · rw [hfa]; rfl
        · rw [hfa, Option.some_bind] at h
          cases hml : filterOpt f l with
          | none => rw [hml] at h; cases h
          | some out => exact ih.mp (by rw [hml]; rfl) x hmem
    · intro h
      rcases Option.isSome_iff_exists.mp (h a (List.mem_cons_self a l)) with ⟨b, hb⟩
      rcases Option.isSome_iff_exists.mp
        (ih.mpr (fun x hx => h x (List.mem_cons_of_mem a hx))) with ⟨out, hout⟩
      rw [hb, Option.some_bind, hout, Option.some_bind]
      rfl

theorem readyNestedM_isSome_iff {pr : JsVal} :
    (readyNestedM pr).isSome = true ↔ pr ≠ .null := by
  constructor
  · intro h hc
    subst hc
    cases h
  · intro h
    rw [readyNestedM_of_ne_null h]
    rfl

theorem readyRowM_isSome_iff {row : JsVal} :
    (readyRowM row).isSome = true ↔ row ≠ .null := by
  constructor
  · intro h hc
    subst hc
    cases h
  · intro h
    rw [readyRowM_of_ne_null h]
    rfl

theorem lineOfStockM_isSome_iff {link st : JsVal} :
    (lineOfStockM link st).isSome = true ↔ st ≠ .null := by
  constructor
  · intro h hc
    subst hc
    cases h
  · intro h
    rw [lineOfStockM_of_ne_null h]
    rfl

theorem rowOfStockM_isSome_iff {pid pname st : JsVal} :
    (rowOfStockM pid pname st).isSome = true ↔ st ≠ .null := by
  constructor
  · intro h hc
    subst hc
    cases h
  · intro h
    rw [rowOfStockM_of_ne_null h]
    rfl

theorem mkNestedProductM_isSome_iff {sw pr : JsVal} (h : pr ≠ .null) :
    (mkNestedProductM sw pr).isSome = true ↔ ∀ st ∈ stocksOfD pr, st ≠ .null := by
  rw [mkNestedProductM_of_ne_null h]
  cases hml : mapOpt (lineOfStockM (nestedProductLink sw pr)) (stocksOfD pr) with
  | none =>
    rw [Option.none_bind]
    constructor
    · intro hc
      cases hc
    · intro hall
      have : (mapOpt (lineOfStockM (nestedProductLink sw pr)) (stocksOfD pr)).isSome = true :=
        mapOpt_isSome_iff.mpr (fun st hst => lineOfStockM_isSome_iff.mpr (hall st hst))
      rw [hml] at this
      cases this
  | some lines =>
    rw [Option.some_bind]
    constructor
    · intro _ st hst
      exact lineOfStockM_isSome_iff.mp (mapOpt_isSome_iff.mp (by rw [hml]; rfl) st hst)
    · intro _
      rfl

theorem rowsOfProductM_isSome_iff {pr : JsVal} (h : pr ≠ .null) :
    (rowsOfProductM pr).isSome = true ↔
      (readyV2D pr = true → ∀ st ∈ stocksOfD pr, st ≠ .null) := by
  rw [rowsOfProductM_of_ne_null h]
  by_cases hr : readyV2D pr
  · rw [if_pos hr]
    rw [mapOpt_isSome_iff]
    constructor
    · intro hall _ st hst
      exact rowOfStockM_isSome_iff.mp (hall st hst)
    · intro hall st hst
      exact rowOfStockM_isSome_iff.mpr (hall hr st hst)
  · rw [if_neg hr]
    simp only [Option.isSome_some, true_iff]
    intro hc
    exact absurd hc hr

/-- No `TypeError` on variant 1's `normalizeProducts(p)`: `p` itself is not
null; every scanned product (or flat row) is non-null; and every stock entry
of a product that passes the ready gate is non-null. -/
def v1Safe (p : JsVal) : Bool :=
  !(p == .null) &&
  (match jsGetD p "products" with
   | .arr ps => ps.all (fun pr => !(pr == .null) &&
       (!readyNestedD pr || (stocksOfD pr).all (fun st => !(st == .null))))
   | _ =>
     match jsGetD p "items" with
     | .arr rows => rows.all (fun r => !(r == .null))
     | _ => true)

/-- No `TypeError` on variant 2's `normalizeRows(p)` (it checks `items`
first, and dereferences every product before its ready gate). -/
def v2Safe (p : JsVal) : Bool :=
  !(p == .null) &&
  (match jsGetD p "items" with
   | .arr rows => rows.all (fun r => !(r == .null))
   | _ =>
     match jsGetD p "products" with
     | .arr ps => ps.all (fun pr => !(pr == .null) &&
         (!readyV2D pr || (stocksOfD pr).all (fun st => !(st == .null))))
     | _ => true)

theorem bind_some_isSome {x : Option α} {g : α → β} :
    (x.bind (fun a => some (g a))).isSome = x.isSome := by
  cases x <;> rfl

theorem nested_isSome_iff {sw : JsVal} {ps : List JsVal} :
    ((filterOpt readyNestedM ps).bind
      (fun kept => mapOpt (mkNestedProductM sw) kept)).isSome = true ↔
    ∀ pr ∈ ps, pr ≠ .null ∧ (readyNestedD pr = true → ∀ st ∈ stocksOfD pr, st ≠ .null) := by
  by_cases hnn : ∀ pr ∈ ps, pr ≠ JsVal.null
  · have hkept : filterOpt readyNestedM ps = some (ps.filter readyNestedD) :=
      filterOpt_eq_of_forall (fun pr hpr => readyNestedM_of_ne_null (hnn pr hpr))
    rw [hkept, Option.some_bind, mapOpt_isSome_iff]
    constructor
    · intro h pr hpr
      refine ⟨hnn pr hpr, fun hr st hst => ?_⟩
      exact (mkNestedProductM_isSome_iff (hnn pr hpr)).mp
        (h pr (List.mem_filter.mpr ⟨hpr, hr⟩)) st hst
    · intro h pr hpr
      rcases List.mem_filter.mp hpr with ⟨hmem, hready⟩
      exact (mkNestedProductM_isSome_iff (hnn pr hmem)).mpr ((h pr hmem).2 hready)
  · push_neg at hnn
    obtain ⟨pr, hpr, hprnull⟩ := hnn
    have hnone : filterOpt readyNestedM ps = none :=
      filterOpt_eq_none_of_mem hpr (by rw [hprnull]; rfl)
    rw [hnone, Option.none_bind]
    constructor
    · intro hc
      cases hc
    · intro h
      exact absurd hprnull (h pr hpr).1

theorem flat_isSome_iff {sw : JsVal} {rows : List JsVal} :
    ((filterOpt readyRowM rows).bind
      (fun kept => some (groupRows sw kept))).isSome = true ↔
    ∀ r ∈ rows, r ≠ .null := by
  rw [bind_some_isSome, filterOpt_isSome_iff]
  constructor
  · intro h r hr
    exact readyRowM_isSome_iff.mp (h r hr)
  · intro h r hr
    exact readyRowM_isSome_iff.mpr (h r hr)

theorem v2products_isSome_iff {ps : List JsVal} :
    ((mapOpt rowsOfProductM ps).bind
      (fun ls => some (flatMapList id ls))).isSome = true ↔
    ∀ pr ∈ ps, pr ≠ .null ∧ (readyV2D pr = true → ∀ st ∈ stocksOfD pr, st ≠ .null) := by
  rw [bind_some_isSome, mapOpt_isSome_iff]
  constructor
  · intro h pr hpr
    have hs := h pr hpr
    have hnn : pr ≠ JsVal.null := by
      intro hc
      rw [hc] at hs
      cases hs
    exact ⟨hnn, fun hr st hst => (rowsOfProductM_isSome_iff hnn).mp hs hr st hst⟩
  · intro h pr hpr
    exact (rowsOfProductM_isSome_iff (h pr hpr).1).mpr (h pr hpr).2

theorem v2items_isSome_iff {rows : List JsVal} :
    (filterOpt readyRowM rows).isSome = true ↔ ∀ r ∈ rows, r ≠ .null := by
  rw [filterOpt_isSome_iff]
  constructor
  · intro h r hr
    exact readyRowM_isSome_iff.mp (h r hr)
  · intro h r hr
    exact readyRowM_isSome_iff.mpr (h r hr)

theorem v1Safe_nested_iff {p : JsVal} {ps : List JsVal} (hp : p ≠ .null)
    (h : jsGetD p "products" = .arr ps) :
    v1Safe p = true ↔
      ∀ pr ∈ ps, pr ≠ .null ∧ (readyNestedD pr = true → ∀ st ∈ stocksOfD pr, st ≠ .null) := by
  unfold v1Safe
  rw [h, beq_eq_false_iff_ne.mpr hp]
  simp only [Bool.not_false, Bool.true_and, List.all_eq_true, Bool.and_eq_true,
    Bool.or_eq_true, Bool.not_eq_true', beq_eq_false_iff_ne]
  constructor
  · intro hall pr hpr
    obtain ⟨h1, h2⟩ := hall pr hpr
    refine ⟨h1, fun hr st hst => ?_⟩
    rcases h2 with h2 | h2
    · rw [hr] at h2
      cases h2
    · exact h2 st hst
  · intro hall pr hpr
    obtain ⟨h1, h2⟩ := hall pr hpr
    refine ⟨h1, ?_⟩
    by_cases hr : readyNestedD pr
    · exact Or.inr (h2 hr)
    · exact Or.inl (by simpa using hr)

theorem v1Safe_flat_iff {p : JsVal} {rows : List JsVal} (hp : p ≠ .null)
    (h1 : isArrB (jsGetD p "products") = false) (h2 : jsGetD p "items" = .arr rows) :
    v1Safe p = true ↔ ∀ r ∈ rows, r ≠ .null := by
  unfold v1Safe
  rw [h2, beq_eq_false_iff_ne.mpr hp]
  cases hx : jsGetD p "products"
  case arr =>
    rw [hx] at h1
    cases h1
  all_goals (
    simp only [Bool.not_false, Bool.true_and, List.all_eq_true, Bool.not_eq_true',
      beq_eq_false_iff_ne])

theorem v1Safe_neither {p : JsVal} (hp : p ≠ .null)
    (h1 : isArrB (jsGetD p "products") = false) (h2 : isArrB (jsGetD p "items") = false) :
    v1Safe p = true := by
  unfold v1Safe
  rw [beq_eq_false_iff_ne.mpr hp]
  cases hx : jsGetD p "products"
  case arr =>
    rw [hx] at h1
    cases h1
  all_goals (
    cases hy : jsGetD p "items"
    case arr =>
      rw [hy] at h2
      cases h2
    all_goals rfl)

theorem v2Safe_items_iff {p : JsVal} {rows : List JsVal} (hp : p ≠ .null)
    (h : jsGetD p "items" = .arr rows) :
    v2Safe p = true ↔ ∀ r ∈ rows, r ≠ .null := by
  unfold v2Safe
  rw [h, beq_eq_false_iff_ne.mpr hp]
  simp only [Bool.not_false, Bool.true_and, List.all_eq_true, Bool.not_eq_true',
    beq_eq_false_iff_ne]

theorem v2Safe_products_iff {p : JsVal} {ps : List JsVal} (hp : p ≠ .null)
    (h1 : isArrB (jsGetD p "items") = false) (h2 : jsGetD p "products" = .arr ps) :
    v2Safe p = true ↔
      ∀ pr ∈ ps, pr ≠ .null ∧ (readyV2D pr = true → ∀ st ∈ stocksOfD pr, st ≠ .null) := by
  unfold v2Safe
  rw [h2, beq_eq_false_iff_ne.mpr hp]
  cases hx : jsGetD p "items"
  case arr =>
    rw [hx] at h1
    cases h1
  all_goals (
    simp only [Bool.not_false, Bool.true_and, List.all_eq_true, Bool.and_eq_true,
      Bool.or_eq_true, Bool.not_eq_true', beq_eq_false_iff_ne]
    constructor
    · intro hall pr hpr
      obtain ⟨ha, hb⟩ := hall pr hpr
      refine ⟨ha, fun hr st hst => ?_⟩
      rcases hb with hb | hb
      · rw [hr] at hb
        cases hb
      · exact hb st hst
    · intro hall pr hpr
      obtain ⟨ha, hb⟩ := hall pr hpr
      refine ⟨ha, ?_⟩
      by_cases hr : readyV2D pr
      · exact Or.inr (hb hr)
      · exact Or.inl (by simpa using hr))

theorem v2Safe_neither {p : JsVal} (hp : p ≠ .null)
    (h1 : isArrB (jsGetD p "items") = false) (h2 : isArrB (jsGetD p "products") = false) :
    v2Safe p = true := by
  unfold v2Safe
  rw [beq_eq_false_iff_ne.mpr hp]
  cases hx : jsGetD p "items"
  case arr =>
    rw [hx] at h1
    cases h1
  all_goals (
    cases hy : jsGetD p "products"
    case arr =>
      rw [hy] at h2
      cases h2
    all_goals rfl)

theorem notArr_of_no_elems {v : JsVal} (h : ¬∃ l, v = .arr l) : isArrB v = false := by
  cases hx : v
  case arr l => exact absurd ⟨l, hx⟩ h
  all_goals rfl

/-- `normalizeProducts` succeeds exactly on `v1Safe` payloads. -/
theorem normalizeProducts_isSome_iff (p : JsVal) :
    (normalizeProducts p).isSome = true ↔ v1Safe p = true := by
  by_cases hp : p = .null
  · subst hp
    rw [normalizeProducts_null]
    constructor
    · intro h
      cases h
    · intro h
      exact absurd h (by decide)
  · by_cases hprod : ∃ ps, jsGetD p "products" = .arr ps
    · obtain ⟨ps, harr⟩ := hprod
      rw [normalizeProducts_nested (by rw [jsGet_of_ne_null hp "products", harr])]
      exact nested_isSome_iff.trans (v1Safe_nested_iff hp harr).symm
    · have h1 : isArrB (jsGetD p "products") = false := notArr_of_no_elems hprod
      by_cases hitems : ∃ rows, jsGetD p "items" = .arr rows
      · obtain ⟨rows, hit⟩ := hitems
        rw [normalizeProducts_flat (jsGet_of_ne_null hp "products") h1
          (by rw [jsGet_of_ne_null hp "items", hit])]
        exact flat_isSome_iff.trans (v1Safe_flat_iff hp h1 hit).symm
      · have h2 : isArrB (jsGetD p "items") = false := notArr_of_no_elems hitems
        rw [normalizeProducts_neither (jsGet_of_ne_null hp "products") h1
          (jsGet_of_ne_null hp "items") h2]
        exact iff_of_true rfl (v1Safe_neither hp h1 h2)

/-- `normalizeRows` succeeds exactly on `v2Safe` payloads. -/
theorem normalizeRows_isSome_iff (p : JsVal) :
    (normalizeRows p).isSome = true ↔ v2Safe p = true := by
  by_cases hp : p = .null
  · subst hp
    rw [normalizeRows_null]
    constructor
    · intro h
      cases h
    · intro h
      exact absurd h (by decide)
  · by_cases hitems : ∃ rows, jsGetD p "items" = .arr rows
    · obtain ⟨rows, hit⟩ := hitems
      rw [normalizeRows_items (by rw [jsGet_of_ne_null hp "items", hit])]
      exact v2items_isSome_iff.trans (v2Safe_items_iff hp hit).symm
    · have h1 : isArrB (jsGetD p "items") = false := notArr_of_no_elems hitems
      by_cases hprod : ∃ ps, jsGetD p "products" = .arr ps
      · obtain ⟨ps, harr⟩ := hprod
        rw [normalizeRows_products (jsGet_of_ne_null hp "items") h1
          (by rw [jsGet_of_ne_null hp "products", harr])]
        exact v2products_isSome_iff.trans (v2Safe_products_iff hp h1 harr).symm
      · have h2 : isArrB (jsGetD p "products") = false := notArr_of_no_elems hprod
        rw [normalizeRows_neither (jsGet_of_ne_null hp "items") h1
          (jsGet_of_ne_null hp "products") h2]
        exact iff_of_true rfl (v2Safe_neither hp h1 h2)

/-! ### Readiness of the names the normalizers keep -/

theorem isReady_name_default {a b d : JsVal}
    (h : isReadyProductName (jsOr a b) = true) :
    jsOr a (jsOr b d) = jsOr a b ∧ isReadyProductName (jsOr a (jsOr b d)) = true := by
  by_cases ha : a.truthy = true
  · rw [jsOr_of_truthy ha, jsOr_of_truthy ha] at *
    exact ⟨rfl, h⟩
  · have ha' : a.truthy = false := by simpa using ha
    rw [jsOr_of_not_truthy ha'] at h
    have hb : b.truthy = true := truthy_of_isReady h
    rw [jsOr_of_not_truthy ha', jsOr_of_not_truthy ha', jsOr_of_truthy hb]
    exact ⟨rfl, h⟩

theorem readyV2D_of_readyNestedD {pr : JsVal} (h : readyNestedD pr = true) :
    readyV2D pr = true ∧ nestedProductName pr = jsOr (jsGetD pr "product_name") (jsGetD pr "name") := by
  unfold readyNestedD at h
  unfold readyV2D nestedProductName
  obtain ⟨heq, hready⟩ := isReady_name_default (d := .str "Tanpa Nama") h
  exact ⟨by rw [heq]; exact h, heq⟩

/-! ### Shape of a successful nested normalization -/

theorem normalizeProducts_nested_mem {payload : JsVal} {ps : List JsVal}
    {out : List CanonicalProduct}
    (h : jsGet payload "products" = some (.arr ps))
    (hout : normalizeProducts payload = some out) :
    out.length = (ps.filter readyNestedD).length ∧
    ∀ c ∈ out, ∃ pr ∈ ps, pr ≠ .null ∧ readyNestedD pr = true ∧
      mkNestedProductM (sourceWebsite payload) pr = some c := by
  rw [normalizeProducts_nested h] at hout
  cases hf : filterOpt readyNestedM ps with
  | none =>
    rw [hf] at hout
    cases hout
  | some kept =>
    rw [hf, Option.some_bind] at hout
    have hnn : ∀ pr ∈ ps, pr ≠ JsVal.null := by
      intro pr hpr hc
      have hs := filterOpt_arg_isSome hf hpr
      rw [hc] at hs
      cases hs
    have hkept : kept = ps.filter readyNestedD := by
      have := filterOpt_eq_of_forall
        (fun pr hpr => readyNestedM_of_ne_null (hnn pr hpr))
      rw [hf] at this
      exact Option.some_inj.mp this
    constructor
    · rw [mapOpt_length hout, hkept]
    · intro c hc
      obtain ⟨pr, hpr, hmk⟩ := mapOpt_mem hout hc
      rw [hkept] at hpr
      rcases List.mem_filter.mp hpr with ⟨hmem, hready⟩
      exact ⟨pr, hmem, hnn pr hmem, hready, hmk⟩

theorem mkNestedProductM_fields {sw pr : JsVal} {c : CanonicalProduct}
    (hnn : pr ≠ .null) (h : mkNestedProductM sw pr = some c) :
    c.product_name = nestedProductName pr ∧
    ∀ l ∈ c.lines, ∃ st ∈ stocksOfD pr, st ≠ .null ∧
      l = mkNestedLine (nestedProductLink sw pr) st := by
  rw [mkNestedProductM_of_ne_null hnn] at h
  cases hml : mapOpt (lineOfStockM (nestedProductLink sw pr)) (stocksOfD pr) with
  | none =>
    rw [hml] at h
    cases h
  | some lines =>
    rw [hml, Option.some_bind] at h
    have hc := Option.some_inj.mp h
    constructor
    · rw [← hc]
    · intro l hl
      rw [← hc] at hl
      obtain ⟨st, hst, hlo⟩ := mapOpt_mem hml hl
      have hstnn : st ≠ JsVal.null := by
        intro hcn
        rw [hcn] at hlo
        cases hlo
      rw [lineOfStockM_of_ne_null hstnn] at hlo
      exact ⟨st, hst, hstnn, (Option.some_inj.mp hlo).symm⟩

/-! ### The filters -/

/-- Is a value a string (the only receivers `.toLowerCase()` accepts)? -/
def isStrB : JsVal → Bool
  | .str _ => true
  | _ => false

/-- The per-line search text of variant 1, written as the amended claim
reads: variation text, then the SKU's string form, then the stock's string
form with `null`/absent becoming empty. -/
def amendedLineText (l : StockLine) : String :=
  l.variation_inline ++ " " ++ jsToString (jsOr l.sku (.str "")) ++ " " ++
    jsToString (jsCoalesce l.stock (.str ""))

/-- Variant 1's visibility predicate as the amended claim reads:
case-insensitive substring match against the product name, or against some
line's text. -/
def specMatchV1Amended (q : String) (p : CanonicalProduct) : Bool :=
  strIncludes (strLower (jsToString (jsOr p.product_name (.str "")))) q ||
  p.lines.any (fun l => strIncludes (strLower (amendedLineText l)) q)

/-- Variant 2's visibility predicate: name, SKU and variation text — the
row's stock value is not part of the haystack. -/
def specMatchV2 (q : String) (row : JsVal) : Bool :=
  strIncludes (strLower (jsToString (jsOr (jsGetD row "product_name") (.str "")) ++ " " ++
    jsToString (jsOr (jsGetD row "sku") (.str "")) ++ " " ++
    jsToString (jsOr (jsGetD row "variation_text") (.str "")))) q

theorem jsOr_str_empty (s : String) : jsToString (jsOr (.str s) (.str "")) = s := by
  by_cases h : s = ""
  · subst h
    rfl
  · rw [jsOr_of_truthy (by simp [JsVal.truthy, h])]
    rfl

theorem lineHaystack_eq (l : StockLine) :
    lineHaystack l = strLower (amendedLineText l) := by
  unfold lineHaystack amendedLineText
  rw [jsOr_str_empty]

theorem productMatchesM_eq {q : String} {p : CanonicalProduct}
    (h : isStrB (jsOr p.product_name (.str "")) = true) :
    productMatchesM q p = some (specMatchV1Amended q p) := by
  unfold productMatchesM specMatchV1Amended jsToLowerM
  cases hs : jsOr p.product_name (.str "")
  case str s =>
    by_cases hq : strIncludes (strLower s) q
    · simp [jsToString, hq]
    · simp [jsToString, hq, lineHaystack_eq]
  all_goals (rw [hs] at h; cases h)

theorem rowHaystackM_of_ne_null {row : JsVal} (h : row ≠ .null) :
    rowHaystackM row =
      some (strLower (jsToString (jsOr (jsGetD row "product_name") (.str "")) ++ " " ++
        jsToString (jsOr (jsGetD row "sku") (.str "")) ++ " " ++
        jsToString (jsOr (jsGetD row "variation_text") (.str "")))) := by
  simp [rowHaystackM, jsGet_of_ne_null h]

theorem applyFilterV1_empty {s : String} (h : strTrim s = "")
    (ps : List CanonicalProduct) : applyFilterV1 s ps = some ps := by
  unfold applyFilterV1
  rw [h]
  rfl

theorem applyFilterV2_empty {s : String} (h : strTrim s = "")
    (rows : List JsVal) : applyFilterV2 s rows = some rows := by
  unfold applyFilterV2
  rw [h]
  rfl

theorem applyFilterV1_nonempty {input : String} {ps : List CanonicalProduct}
    (hq : ¬strLower (strTrim input) = "")
    (h : ∀ p ∈ ps, isStrB (jsOr p.product_name (.str "")) = true) :
    applyFilterV1 input ps =
      some (ps.filter (specMatchV1Amended (strLower (strTrim input)))) := by
  unfold applyFilterV1
  rw [if_neg hq]
  exact filterOpt_eq_of_forall (fun p hp => productMatchesM_eq (h p hp))

theorem applyFilterV2_nonempty {input : String} {rows : List JsVal}
    (hq : ¬strLower (strTrim input) = "")
    (h : ∀ r ∈ rows, r ≠ .null) :
    applyFilterV2 input rows =
      some (rows.filter (specMatchV2 (strLower (strTrim input)))) := by
  unfold applyFilterV2
  rw [if_neg hq]
  refine filterOpt_eq_of_forall (fun r hr => ?_)
  rw [rowHaystackM_of_ne_null (h r hr)]
  rfl

/-! ### The summary counters as sums -/

theorem foldl_add_eq_sum {M : Type} [AddCommMonoid M] (f : α → M) :
    ∀ (l : List α) (n : M), l.foldl (fun s a => s + f a) n = n + (l.map f).sum := by
  intro l
  induction l with
  | nil => intro n; simp
  | cons a l ih =>
    intro n
    simp only [List.foldl_cons, List.map_cons, List.sum_cons, ih, add_assoc]

theorem updateSummary_eq (items : List CanonicalProduct) :
    updateSummary items =
      (items.length,
       (items.map (fun p => p.lines.length)).sum,
       (items.map (fun p => (p.lines.map (fun l => stockNum l.stock)).sum)).sum) := by
  unfold updateSummary
  simp only [foldl_add_eq_sum, Nat.zero_add, zero_add]

/-! ### Corollaries of the grouping invariant and branch success -/

theorem jsOr_ready {a d : JsVal} (h : isReadyProductName a = true) : jsOr a d = a :=
  jsOr_of_truthy (truthy_of_isReady h)

theorem mem_flatMapList {f : α → List β} {l : List α} {x : β} :
    x ∈ flatMapList f l ↔ ∃ a ∈ l, x ∈ f a := by
  induction l with
  | nil => simp [flatMapList]
  | cons a l ih => simp [flatMapList, ih]

theorem find?_pred {p : α → Bool} {l : List α} {a : α} (h : l.find? p = some a) :
    p a = true := by
  induction l with
  | nil => cases h
  | cons x l ih =>
    cases hpx : p x with
    | true =>
      simp only [List.find?_cons, hpx, Option.some_inj] at h
      rw [← h]
      exact hpx
    | false =>
      simp only [List.find?_cons, hpx] at h
      exact ih h

theorem groupRows_fields {sw : JsVal} {rows : List JsVal} {b : CanonicalProduct}
    (hb : b ∈ groupRows sw rows) :
    ∃ r0 ∈ rows, rows.find? (fun r => flatKey r == flatKey r0) = some r0 ∧
      b = { mkBucket sw r0 with lines := b.lines } := by
  obtain ⟨kb, hkb, rfl⟩ := List.mem_map.mp hb
  obtain ⟨_, hfields, _⟩ := goodAcc_fold sw rows
  obtain ⟨r0, hr0, hfind, heq⟩ := hfields kb hkb
  have hpred := find?_pred (p := fun r => flatKey r == kb.1) hfind
  have hkey : kb.1 = flatKey r0 := (beq_iff_eq.mp hpred).symm
  rw [hkey] at hfind
  exact ⟨r0, hr0, hfind, heq⟩

theorem groupRows_lines {sw : JsVal} {rows : List JsVal} {b : CanonicalProduct}
    (hb : b ∈ groupRows sw rows) {l : StockLine} (hl : l ∈ b.lines) :
    ∃ r ∈ rows, l = mkFlatLine r b.product_link := by
  obtain ⟨kb, hkb, rfl⟩ := List.mem_map.mp hb
  obtain ⟨_, _, hlines⟩ := goodAcc_fold sw rows
  rw [hlines kb hkb] at hl
  obtain ⟨r, hr, rfl⟩ := List.mem_map.mp hl
  exact ⟨r, (List.mem_filter.mp hr).1, rfl⟩

theorem groupRows_cover {sw : JsVal} {rows : List JsVal} {r : JsVal} (hr : r ∈ rows) :
    ∃ b ∈ groupRows sw rows, mkFlatLine r b.product_link ∈ b.lines := by
  obtain ⟨hcover, _, hlines⟩ := goodAcc_fold sw rows
  obtain ⟨kb, hkb, hkey⟩ := hcover r hr
  refine ⟨kb.2, List.mem_map_of_mem _ hkb, ?_⟩
  rw [hlines kb hkb]
  exact List.mem_map_of_mem _ (List.mem_filter.mpr ⟨hr, beq_iff_eq.mpr hkey.symm⟩)

theorem normalizeProducts_flat_out {payload pv : JsVal} {rows : List JsVal}
    {out : List CanonicalProduct}
    (h1 : jsGet payload "products" = some pv) (h2 : isArrB pv = false)
    (h3 : jsGet payload "items" = some (.arr rows))
    (hout : normalizeProducts payload = some out) :
    (∀ r ∈ rows, r ≠ .null) ∧
    out = groupRows (sourceWebsite payload) (rows.filter readyRowD) := by
  rw [normalizeProducts_flat h1 h2 h3] at hout
  cases hf : filterOpt readyRowM rows with
  | none =>
    rw [hf] at hout
    cases hout
  | some kept =>
    rw [hf, Option.some_bind] at hout
    have hnn : ∀ r ∈ rows, r ≠ JsVal.null := by
      intro r hr hc
      have hs := filterOpt_arg_isSome hf hr
      rw [hc] at hs
      cases hs
    have hkept : kept = rows.filter readyRowD := by
      have := filterOpt_eq_of_forall (fun r hr => readyRowM_of_ne_null (hnn r hr))
      rw [hf] at this
      exact Option.some_inj.mp this
    refine ⟨hnn, ?_⟩
    rw [← Option.some_inj.mp hout, hkept]

theorem normalizeRows_items_out {payload : JsVal} {rows out : List JsVal}
    (h : jsGet payload "items" = some (.arr rows))
    (hout : normalizeRows payload = some out) :
    (∀ r ∈ rows, r ≠ .null) ∧ out = rows.filter readyRowD := by
  rw [normalizeRows_items h] at hout
  have hnn : ∀ r ∈ rows, r ≠ JsVal.null := by
    intro r hr hc
    have hs := filterOpt_arg_isSome hout hr
    rw [hc] at hs
    cases hs
  have := filterOpt_eq_of_forall (fun r hr => readyRowM_of_ne_null (hnn r hr))
  rw [hout] at this
  exact ⟨hnn, Option.some_inj.mp this⟩

theorem mkV2Row_name (pid pname st : JsVal) :
    jsGetD (mkV2Row pid pname st) "product_name" = pname := rfl

theorem normalizeRows_products_mem {payload iv : JsVal} {ps out : List JsVal}
    (h1 : jsGet payload "items" = some iv) (h2 : isArrB iv = false)
    (h3 : jsGet payload "products" = some (.arr ps))
    (hout : normalizeRows payload = some out) :
    ∀ r ∈ out, ∃ pr ∈ ps, pr ≠ .null ∧ readyV2D pr = true ∧
      ∃ st ∈ stocksOfD pr, st ≠ .null ∧
        r = mkV2Row (nestedProductId pr) (nestedProductName pr) st := by
  rw [normalizeRows_products h1 h2 h3] at hout
  cases hm : mapOpt rowsOfProductM ps with
  | none =>
    rw [hm] at hout
    cases hout
  | some ls =>
    rw [hm, Option.some_bind] at hout
    intro r hr
    rw [← Option.some_inj.mp hout] at hr
    obtain ⟨lr, hlr, hrin⟩ := mem_flatMapList.mp hr
    obtain ⟨pr, hpr, hrows⟩ := mapOpt_mem hm hlr
    have hprnn : pr ≠ JsVal.null := by
      intro hc
      rw [hc] at hrows
      cases hrows
    rw [rowsOfProductM_of_ne_null hprnn] at hrows
    by_cases hready : readyV2D pr = true
    · rw [if_pos hready] at hrows
      obtain ⟨st, hst, hrow⟩ := mapOpt_mem hrows (by exact hrin)
      have hstnn : st ≠ JsVal.null := by
        intro hc
        rw [hc] at hrow
        cases hrow
      rw [rowOfStockM_of_ne_null hstnn] at hrow
      exact ⟨pr, hpr, hprnn, hready, st, hst, hstnn, (Option.some_inj.mp hrow).symm⟩
    · rw [if_neg hready] at hrows
      rw [← Option.some_inj.mp hrows] at hrin
      cases hrin

/-- The rebuild equality for variant 2's products branch: the output is, in
order, one row per stock entry of each ready product and nothing for a
non-ready product. -/
theorem normalizeRows_products_out {payload iv : JsVal} {ps out : List JsVal}
    (h1 : jsGet payload "items" = some iv) (h2 : isArrB iv = false)
    (h3 : jsGet payload "products" = some (.arr ps))
    (hout : normalizeRows payload = some out) :
    out = flatMapList (fun pr => if readyV2D pr then
        (stocksOfD pr).map (mkV2Row (nestedProductId pr) (nestedProductName pr))
      else []) ps := by
  rw [normalizeRows_products h1 h2 h3] at hout
  cases hm : mapOpt rowsOfProductM ps with
  | none =>
    rw [hm] at hout
    cases hout
  | some ls =>
    rw [hm, Option.some_bind] at hout
    have hforall : ∀ pr ∈ ps, rowsOfProductM pr =
        some (if readyV2D pr then
          (stocksOfD pr).map (mkV2Row (nestedProductId pr) (nestedProductName pr))
        else []) := by
      intro pr hpr
      have hs : (rowsOfProductM pr).isSome = true :=
        mapOpt_isSome_iff.mp (by rw [hm]; rfl) pr hpr
      have hprnn : pr ≠ JsVal.null := by
        intro hc
        rw [hc, rowsOfProductM_null] at hs
        cases hs
      rw [rowsOfProductM_of_ne_null hprnn]
      by_cases hready : readyV2D pr = true
      · rw [if_pos hready, if_pos hready]
        rw [rowsOfProductM_of_ne_null hprnn, if_pos hready] at hs
        have hs2 : ∀ st ∈ stocksOfD pr, st ≠ JsVal.null := by
          intro st hst
          exact rowOfStockM_isSome_iff.mp (mapOpt_isSome_iff.mp hs st hst)
        exact mapOpt_eq_of_forall (fun st hst => rowOfStockM_of_ne_null (hs2 st hst))
      · rw [if_neg hready, if_neg hready]
    have hls : ls = ps.map (fun pr => if readyV2D pr then
        (stocksOfD pr).map (mkV2Row (nestedProductId pr) (nestedProductName pr))
      else []) := by
      have hme := mapOpt_eq_of_forall hforall
      rw [hm] at hme
      exact Option.some_inj.mp hme
    rw [← Option.some_inj.mp hout, hls, flatMapList_id_map]

/-! ### `formatVariationInline`: branch behaviour for the amended claim -/

theorem fvi_fallback {v t s : JsVal} (h : ∀ x xs, v ≠ .arr (x :: xs)) :
    formatVariationInline v t s = variationFallback t s := by
  cases v with
  | arr es =>
    cases es with
    | nil => rfl
    | cons x xs => exact absurd rfl (h x xs)
  | null => rfl
  | bool b => rfl
  | num n => rfl
  | str sq => rfl
  | obj fs => rfl

theorem ite_brace_shape (t : String) :
    (if t = "" then "" else "\x7b" ++ t ++ "\x7d") = "" ∨
    ∃ txt, txt ≠ "" ∧
      (if t = "" then "" else "\x7b" ++ t ++ "\x7d") = "\x7b" ++ txt ++ "\x7d" := by
  by_cases h : t = ""
  · left
    rw [if_pos h]
  · right
    exact ⟨t, h, if_neg h⟩

theorem entryBrace_shape (item : JsVal) :
    entryBrace item = "" ∨
    ∃ txt, txt ≠ "" ∧ entryBrace item = "\x7b" ++ txt ++ "\x7d" := by
  unfold entryBrace
  split
  · exact ite_brace_shape _
  · exact ite_brace_shape _

theorem variationFallback_passthrough {t s : JsVal}
    (h : strTrim (jsToString (jsOr t (.str ""))) ≠ "")
    (hb : strStartsWith (strTrim (jsToString (jsOr t (.str "")))) "\x7b" = true) :
    variationFallback t s = strTrim (jsToString (jsOr t (.str ""))) := by
  unfold variationFallback
  rw [if_pos h, if_pos hb]

theorem variationFallback_split {t s : JsVal}
    (h : strTrim (jsToString (jsOr t (.str ""))) ≠ "")
    (hb : strStartsWith (strTrim (jsToString (jsOr t (.str "")))) "\x7b" = false) :
    variationFallback t s =
      joinStrs ((((strSplitComma (strTrim (jsToString (jsOr t (.str ""))))).map
        strTrim).filter (fun p => p ≠ "")).map (fun p => "\x7b" ++ p ++ "\x7d")) := by
  unfold variationFallback
  rw [if_pos h, if_neg (by rw [hb]; exact Bool.false_ne_true)]

theorem variationFallback_sku {t s : JsVal}
    (h : strTrim (jsToString (jsOr t (.str ""))) = "")
    (hs : strTrim (jsToString (jsOr s (.str ""))) ≠ "") :
    variationFallback t s = "\x7bSKU:" ++ strTrim (jsToString s) ++ "\x7d" := by
  unfold variationFallback
  rw [if_neg (not_not_intro h), if_pos hs]

theorem variationFallback_default {t s : JsVal}
    (h : strTrim (jsToString (jsOr t (.str ""))) = "")
    (hs : strTrim (jsToString (jsOr s (.str ""))) = "") :
    variationFallback t s = "\x7bTanpa Variasi\x7d" := by
  unfold variationFallback
  rw [if_neg (not_not_intro h), if_neg (not_not_intro hs)]

/-! ### Concrete payloads and their normalizations -/

/-- The flat two-row example of the spec (`items`, both rows `P1`). -/
def exRow1 : JsVal := .obj [("product_id", .str "P1"),
  ("product_name", .str "[Ready] Shirt"), ("sku", .str "S1"), ("stock", .num 5)]

def exRow2 : JsVal := .obj [("product_id", .str "P1"),
  ("product_name", .str "[Ready] Shirt"), ("sku", .str "S2"), ("stock", .num 3)]

def exItemsPayload : JsVal := .obj [("items", .arr [exRow1, exRow2])]

/-- The canonical product the flat example groups into. -/
def exProdCanonFlat : CanonicalProduct :=
  { product_id := .str "P1"
    product_name := .str "[Ready] Shirt"
    product_link := .str "https://zzhomey.com/product/P1"
    product_image := .str ""
    lines := [
      { variation_inline := "\x7bSKU:S1\x7d", stock := .num 5, sku := .str "S1",
        link := .str "https://zzhomey.com/product/P1" },
      { variation_inline := "\x7bSKU:S2\x7d", stock := .num 3, sku := .str "S2",
        link := .str "https://zzhomey.com/product/P1" }] }

/-- A nested-shape payload with one ready product and one stock line. -/
def exNestedProd : JsVal := .obj [("product_name", .str "[Ready] Shirt"),
  ("stocks", .arr [.obj [("sku", .str "S1"), ("stock", .num 5)]])]

def exNestedPayload : JsVal := .obj [("products", .arr [exNestedProd])]

/-- The same nested payload with an `items: []` field added. -/
def exBothPayload : JsVal := .obj [("products", .arr [exNestedProd]),
  ("items", .arr [])]

/-- What variant 1 produces from `exNestedPayload`. -/
def exProdCanonNested : CanonicalProduct :=
  { product_id := .str ""
    product_name := .str "[Ready] Shirt"
    product_link := .str "https://zzhomey.com/product/"
    product_image := .str ""
    lines := [
      { variation_inline := "\x7bSKU:S1\x7d", stock := .num 5, sku := .str "S1",
        link := .str "https://zzhomey.com/product/" }] }

/-- What variant 2 produces from `exNestedPayload`. -/
def exV2Row : JsVal := .obj [("product_id", .str ""),
  ("product_name", .str "[Ready] Shirt"), ("sku", .str "S1"), ("stock", .num 5),
  ("warehouse_id", .null), ("variation_text", .str "")]

/-- A ready product whose single stock entry has a non-empty `variations`
array all of whose entries resolve to empty text. -/
def cexC2payload : JsVal := .obj [("products", .arr [.obj [
  ("product_name", .str "[Ready] X"),
  ("stocks", .arr [.obj [("variations", .arr [.str ""])]])]])]

/-- Variant 2's state after loading the flat example and filtering for
`"S1"`: counters still cover both rows, one row visible. -/
def c4State : V2State := ⟨[exRow1, exRow2], (1, 2, 8), [exRow1]⟩

/-- A canonical product whose only line carries a string-valued stock. -/
def cexC9prod : CanonicalProduct :=
  { product_id := .str ""
    product_name := .str "[Ready] A"
    product_link := .str "L"
    product_image := .str ""
    lines := [{ variation_inline := "\x7bTanpa Variasi\x7d", stock := .str "abc",
                sku := .null, link := .str "L" }] }

/-! ### The claim's own matcher (spec wording), for the C9 counterexample -/

/-- The stock contribution as claim C9 words it: the decimal form for a
numeric stock, the empty string for an absent or non-numeric one. -/
def claimStockText : JsVal → String
  | .num n => toString n
  | _ => ""

/-- Visibility as claim C9 states it. -/
def specMatchV1Claim (q : String) (p : CanonicalProduct) : Bool :=
  strIncludes (strLower (jsToString (jsOr p.product_name (.str "")))) q ||
  p.lines.any (fun l => strIncludes (strLower (l.variation_inline ++ " " ++
    jsToString (jsOr l.sku (.str "")) ++ " " ++ claimStockText l.stock)) q)

/-! ### The claims -/

/-- C3 counterexample: the spec says the normalizers accept every parsed
JSON value — "including null" — and never throw, but both variants
dereference the payload (`payload.products`, `payload.items`) without a
guard, so the JSON document `null` makes them throw a `TypeError`
(modelled by `none`). -/
theorem claim_C3_counterexample :
    normalizeProducts .null = none ∧ normalizeRows .null = none :=
  ⟨rfl, rfl⟩

/-- C3 (amended): each normalizer returns a (possibly empty) list instead
of throwing exactly when it never dereferences `null`: the payload itself
is not `null`, every entry of the scanned `products`/`items` array is
non-null, and every stock entry of a product that passes the ready gate is
non-null (`v1Safe`/`v2Safe`).  On such payloads malformed fields degrade
to defaults rather than failing. -/
theorem claim_C3_amended (p : JsVal) :
    ((normalizeProducts p).isSome = true ↔ v1Safe p = true) ∧
    ((normalizeRows p).isSome = true ↔ v2Safe p = true) :=
  ⟨normalizeProducts_isSome_iff p, normalizeRows_isSome_iff p⟩

/-- C6: in both variants, applying the filter with a query that trims to
the empty string returns exactly the stored list, unchanged and in order,
and the summary counters of the result equal the unfiltered list's. -/
theorem claim_C6 (s : String) (h : strTrim s = "") (products : List CanonicalProduct)
    (rows : List JsVal) :
    applyFilterV1 s products = some products ∧
    applyFilterV2 s rows = some rows ∧
    (applyFilterV1 s products).map updateSummary = some (updateSummary products) := by
  refine ⟨applyFilterV1_empty h products, applyFilterV2_empty h rows, ?_⟩
  rw [applyFilterV1_empty h products]
  rfl

theorem claim_C6_witness :
    applyFilterV1 " " [exProdCanonFlat] = some [exProdCanonFlat] ∧
    applyFilterV2 " " [exRow1] = some [exRow1] ∧
    (applyFilterV1 " " [exProdCanonFlat]).map updateSummary =
      some (updateSummary [exProdCanonFlat]) :=
  claim_C6 " " (by decide) [exProdCanonFlat] [exRow1]

/-- C10: for every input value — of any type, `null` and `undefined`
included — `escapeHtml`'s output contains no raw `<`, `>`, `"` or `'`,
and every `&` in it starts one of the entities `&amp;` `&lt;` `&gt;`
`&quot;` `&#039;` (that is what the `escOk` scan checks character by
character). -/
theorem claim_C10 (v : JsVal) :
    escOk (escapeHtml v).toList = true ∧
    ∀ c ∈ (escapeHtml v).toList, ¬(c = '<' ∨ c = '>' ∨ c = '"' ∨ c = '\'') := by
  have h : escOk (escapeHtml v).toList = true := by
    rw [escapeHtml_toList]
    exact escOk_escL _
  exact ⟨h, fun c hc => escOk_mem_not_banned h hc⟩

/-- C8 counterexample: the claim says a non-empty `variation_text` (with no
usable `variations` array) is always split on commas and re-wrapped, "never
one unsplit token", but the code returns a trimmed text that starts with
`{` verbatim: for `variation_text = "{A}, {B}"` the result is the single
unsplit text, not the split-and-wrapped value the claim mandates. -/
theorem claim_C8_counterexample :
    formatVariationInline .null (.str "\x7bA\x7d, \x7bB\x7d") .null =
      "\x7bA\x7d, \x7bB\x7d" ∧
    joinStrs ((((strSplitComma "\x7bA\x7d, \x7bB\x7d").map strTrim).filter
      (fun p => p ≠ "")).map (fun p => "\x7b" ++ p ++ "\x7d")) =
      "\x7b\x7bA\x7d\x7d\x7b\x7bB\x7d\x7d" ∧
    ("\x7bA\x7d, \x7bB\x7d" : String) ≠ "\x7b\x7bA\x7d\x7d\x7b\x7bB\x7d\x7d" := by
  refine ⟨rfl, rfl, ?_⟩
  decide

/-- C8 (amended): variation resolution follows the strict priority the
claim states — a present non-empty `variations` array wins regardless of
the other arguments, rendering each entry as a brace-wrapped trimmed value
and dropping empties; else a non-empty trimmed `variation_text` is used,
and it is split on commas with each trimmed non-empty part brace-wrapped
and concatenated (so "Red, Large" gives the two tokens), EXCEPT that a
text already starting with `{` is returned verbatim; else a non-empty SKU
gives `{SKU:<sku>}`; else the literal `{Tanpa Variasi}`. -/
theorem claim_C8_amended :
    (∀ (x : JsVal) (xs : List JsVal) (t s t' s' : JsVal),
      formatVariationInline (.arr (x :: xs)) t s =
        formatVariationInline (.arr (x :: xs)) t' s') ∧
    (∀ (x : JsVal) (xs : List JsVal) (t s : JsVal),
      formatVariationInline (.arr (x :: xs)) t s =
        joinStrs (((x :: xs).map entryBrace).filter (fun b => b ≠ ""))) ∧
    (∀ item : JsVal, entryBrace item = "" ∨
      ∃ txt, txt ≠ "" ∧ entryBrace item = "\x7b" ++ txt ++ "\x7d") ∧
    (∀ v t s : JsVal, (∀ x xs, v ≠ .arr (x :: xs)) →
      strTrim (jsToString (jsOr t (.str ""))) ≠ "" →
      (strStartsWith (strTrim (jsToString (jsOr t (.str "")))) "\x7b" = true →
        formatVariationInline v t s = strTrim (jsToString (jsOr t (.str "")))) ∧
      (strStartsWith (strTrim (jsToString (jsOr t (.str "")))) "\x7b" = false →
        formatVariationInline v t s =
          joinStrs ((((strSplitComma (strTrim (jsToString (jsOr t (.str ""))))).map
            strTrim).filter (fun p => p ≠ "")).map (fun p => "\x7b" ++ p ++ "\x7d")))) ∧
    (formatVariationInline (.arr []) (.str "Red, Large") .null =
      "\x7bRed\x7d\x7bLarge\x7d") ∧
    (∀ v t s : JsVal, (∀ x xs, v ≠ .arr (x :: xs)) →
      strTrim (jsToString (jsOr t (.str ""))) = "" →
      (strTrim (jsToString (jsOr s (.str ""))) ≠ "" →
        formatVariationInline v t s = "\x7bSKU:" ++ strTrim (jsToString s) ++ "\x7d") ∧
      (strTrim (jsToString (jsOr s (.str ""))) = "" →
        formatVariationInline v t s = "\x7bTanpa Variasi\x7d")) := by
  refine ⟨fun x xs t s t' s' => rfl, fun x xs t s => rfl, entryBrace_shape, ?_, rfl, ?_⟩
  · intro v t s hv ht
    rw [fvi_fallback hv]
    exact ⟨fun hb => variationFallback_passthrough ht hb,
      fun hb => variationFallback_split ht hb⟩
  · intro v t s hv ht
    rw [fvi_fallback hv]
    exact ⟨fun hs => variationFallback_sku ht hs,
      fun hs => variationFallback_default ht hs⟩

theorem claim_C8_amended_witness :
    formatVariationInline (.arr []) (.str "A, B") .null = "\x7bA\x7d\x7bB\x7d" := by
  have h := (claim_C8_amended.2.2.2.1 (.arr []) (.str "A, B") .null
    (fun x xs hc => by cases hc) (by decide)).2 (by decide)
  rw [h]
  decide

/-- C9 counterexample: the claim says an absent or non-numeric stock
contributes the empty string to a line's search haystack, but the code
interpolates `line.stock ?? ""`, which stringifies any non-null value: a
line whose stock is the string `"abc"` matches the query `"abc"` in the
code while the claim's own matcher rejects it. -/
theorem claim_C9_counterexample :
    applyFilterV1 "abc" [cexC9prod] = some [cexC9prod] ∧
    specMatchV1Claim "abc" cexC9prod = false := by
  constructor
  · rfl
  · rfl

/-- C9 (amended): for a non-empty trimmed lower-cased query, variant 1
keeps exactly the products whose name (a string after `|| ""`) or some
line's haystack — variation text, SKU's string form, and the stock's
string form where only `null`/absent becomes empty — contains the query,
case-insensitively; variant 2 keeps exactly the rows whose name, SKU and
`variation_text` concatenation contains it (the row's stock is not
searched). -/
theorem claim_C9_amended :
    (∀ (input : String) (ps : List CanonicalProduct),
      ¬strLower (strTrim input) = "" →
      (∀ p ∈ ps, isStrB (jsOr p.product_name (.str "")) = true) →
      applyFilterV1 input ps =
        some (ps.filter (specMatchV1Amended (strLower (strTrim input))))) ∧
    (∀ (input : String) (rows : List JsVal),
      ¬strLower (strTrim input) = "" → (∀ r ∈ rows, r ≠ .null) →
      applyFilterV2 input rows =
        some (rows.filter (specMatchV2 (strLower (strTrim input))))) :=
  ⟨fun _ _ hq h => applyFilterV1_nonempty hq h,
   fun _ _ hq h => applyFilterV2_nonempty hq h⟩

theorem claim_C9_amended_witness :
    applyFilterV1 "abc" [cexC9prod] =
      some (([cexC9prod]).filter (specMatchV1Amended (strLower (strTrim "abc")))) ∧
    applyFilterV2 "S1" [exRow1, exRow2] =
      some (([exRow1, exRow2]).filter (specMatchV2 (strLower (strTrim "S1")))) :=
  ⟨claim_C9_amended.1 "abc" [cexC9prod] (by decide) (by decide),
   claim_C9_amended.2 "S1" [exRow1, exRow2] (by decide) (by decide)⟩

/-- C4 counterexample: in variant 2 the three counters are set once by
`loadData` from the full normalized row list and `applyFilter` never
recomputes them: after loading the two-row example and filtering for
`"S1"`, one row is visible but the displayed row counter still reads 2 —
it is not "computed over the final visible (filtered) subset" as the
claim states for both variants. -/
theorem claim_C4_counterexample :
    (loadDataV2 exItemsPayload "").bind (fun st => filterEventV2 st "S1") =
      some c4State ∧
    c4State.counters.2.1 = 2 ∧ c4State.visible.length = 1 ∧ (2 : Nat) ≠ 1 := by
  refine ⟨rfl, rfl, rfl, ?_⟩
  decide

/-- C4 (amended): in variant 1 every filter application recomputes the
counters over the visible subset (count, sum of line counts, sum of
numeric stocks); in variant 2 a filter event leaves the counters (and the
row list) untouched, and the counters always equal `loadData`'s
computation over the full normalized row list. -/
theorem claim_C4_amended :
    (∀ (products : List CanonicalProduct) (input : String)
      (out : List CanonicalProduct × (Nat × Nat × Int)),
      filterEventV1 products input = some out →
      out.2 = (out.1.length,
        (out.1.map (fun p => p.lines.length)).sum,
        (out.1.map (fun p => (p.lines.map (fun l => stockNum l.stock)).sum)).sum)) ∧
    (∀ (st : V2State) (input : String) (st' : V2State),
      filterEventV2 st input = some st' →
      st'.counters = st.counters ∧ st'.rows = st.rows) ∧
    (∀ (payload : JsVal) (q0 : String) (st : V2State),
      loadDataV2 payload q0 = some st →
      loadCountersV2 st.rows = some st.counters) := by
  refine ⟨?_, ?_, ?_⟩
  · intro products input out hout
    unfold filterEventV1 at hout
    cases ha : applyFilterV1 input products with
    | none =>
      rw [ha] at hout
      cases hout
    | some filtered =>
      rw [ha] at hout
      simp only [Option.bind_eq_bind', Option.some_bind, Option.pure_def] at hout
      rw [← Option.some_inj.mp hout, updateSummary_eq]
  · intro st input st' hout
    unfold filterEventV2 at hout
    cases ha : applyFilterV2 input st.rows with
    | none =>
      rw [ha] at hout
      cases hout
    | some visible =>
      rw [ha] at hout
      simp only [Option.bind_eq_bind', Option.some_bind, Option.pure_def] at hout
      rw [← Option.some_inj.mp hout]
      exact ⟨rfl, rfl⟩
  · intro payload q0 st hout
    unfold loadDataV2 at hout
    cases hr : normalizeRows payload with
    | none =>
      rw [hr] at hout
      cases hout
    | some rows =>
      rw [hr] at hout
      simp only [Option.bind_eq_bind', Option.some_bind, Option.pure_def] at hout
      cases hc : loadCountersV2 rows with
      | none =>
        rw [hc] at hout
        cases hout
      | some counters =>
        rw [hc, Option.some_bind] at hout
        cases hv : applyFilterV2 q0 rows with
        | none =>
          rw [hv] at hout
          cases hout
        | some visible =>
          rw [hv, Option.some_bind] at hout
          rw [← Option.some_inj.mp hout]
          exact hc

theorem claim_C4_amended_witness :
    ((([] : List CanonicalProduct), ((0 : Nat), (0 : Nat), (0 : Int))).2 =
      (([] : List CanonicalProduct).length,
        (([] : List CanonicalProduct).map (fun p => p.lines.length)).sum,
        (([] : List CanonicalProduct).map
          (fun p => (p.lines.map (fun l => stockNum l.stock)).sum)).sum)) ∧
    (c4State.counters = c4State.counters ∧ c4State.rows = c4State.rows) := by
  constructor
  · exact claim_C4_amended.1 [] "" ([], (0, 0, 0)) (by decide)
  · exact (claim_C4_amended.2.1 c4State "S1" c4State (by decide)).imp id id

/-- C7: the flat `items` shape groups rows by `product_id || product_name
|| ""`; the first row seen for a key establishes the product-level fields
(first-wins, stated here for every grouping run via `find?`); and the
spec's two-row example yields exactly one canonical product, id `"P1"`,
with two lines of stocks 5 and 3 in order. -/
theorem claim_C7 :
    (normalizeProducts exItemsPayload = some [exProdCanonFlat] ∧
     exProdCanonFlat.product_id = .str "P1" ∧
     exProdCanonFlat.lines.map (fun l => l.stock) = [.num 5, .num 3]) ∧
    (∀ (sw : JsVal) (rows : List JsVal), ∀ b ∈ groupRows sw rows,
      ∃ r0 ∈ rows, rows.find? (fun r => flatKey r == flatKey r0) = some r0 ∧
        b = { mkBucket sw r0 with lines := b.lines }) := by
  refine ⟨⟨by decide, rfl, rfl⟩, fun sw rows b hb => groupRows_fields hb⟩

theorem claim_C7_witness :
    ∃ r0 ∈ [exRow1, exRow2],
      ([exRow1, exRow2]).find? (fun r => flatKey r == flatKey r0) = some r0 ∧
      exProdCanonFlat =
        { mkBucket (.str "zzhomey.com") r0 with lines := exProdCanonFlat.lines } :=
  claim_C7.2 (.str "zzhomey.com") [exRow1, exRow2] exProdCanonFlat (by decide)

/-- C5 counterexample: the claim says both variants give the nested
`products` shape precedence, but variant 2's `normalizeRows` checks
`items` first: with `products` holding one ready product and `items`
present but empty, it returns the empty list, while the same payload
without `items` yields the product's row. -/
theorem claim_C5_counterexample :
    normalizeRows exBothPayload = some [] ∧
    normalizeRows exNestedPayload = some [exV2Row] ∧
    some ([] : List JsVal) ≠ some [exV2Row] := by
  refine ⟨rfl, rfl, ?_⟩
  decide

/-- C5 (amended): variant 1 prefers the nested shape — when `products` is
an array the result ignores everything but `source` and `products` (shown
by rebuilding the payload from those two fields); else an `items` array
selects the flat grouped shape; else the result is empty.  Variant 2 has
the opposite precedence: an `items` array wins (the result depends on the
rows alone), `products` is used only when `items` is not an array, and
otherwise the result is empty. -/
theorem claim_C5_amended :
    (∀ (fs : List (String × JsVal)) (ps : List JsVal),
      getField fs "products" = .arr ps →
      normalizeProducts (.obj fs) =
        normalizeProducts (.obj [("source", getField fs "source"),
          ("products", .arr ps)])) ∧
    (∀ (pv : JsVal) (p : JsVal) (rows : List JsVal),
      jsGet p "products" = some pv → isArrB pv = false →
      jsGet p "items" = some (.arr rows) →
      normalizeProducts p = (filterOpt readyRowM rows).bind
        (fun kept => some (groupRows (sourceWebsite p) kept))) ∧
    (∀ p pv iv : JsVal, jsGet p "products" = some pv → isArrB pv = false →
      jsGet p "items" = some iv → isArrB iv = false →
      normalizeProducts p = some []) ∧
    (∀ (fs : List (String × JsVal)) (rows : List JsVal),
      getField fs "items" = .arr rows →
      normalizeRows (.obj fs) = normalizeRows (.obj [("items", .arr rows)])) ∧
    (∀ (iv : JsVal) (p : JsVal) (ps : List JsVal),
      jsGet p "items" = some iv → isArrB iv = false →
      jsGet p "products" = some (.arr ps) →
      normalizeRows p = (mapOpt rowsOfProductM ps).bind
        (fun ls => some (flatMapList id ls))) ∧
    (∀ p iv pv : JsVal, jsGet p "items" = some iv → isArrB iv = false →
      jsGet p "products" = some pv → isArrB pv = false →
      normalizeRows p = some []) := by
  refine ⟨?_, ?_, ?_, ?_, ?_, ?_⟩
  · intro fs ps h
    have h1 : jsGet (JsVal.obj fs) "products" = some (.arr ps) := by
      show some (getField fs "products") = _
      rw [h]
    have h2 : jsGet (JsVal.obj [("source", getField fs "source"),
        ("products", .arr ps)]) "products" = some (.arr ps) := rfl
    rw [normalizeProducts_nested h1, normalizeProducts_nested h2]
    rfl
  · intro pv p rows h1 h2 h3
    exact normalizeProducts_flat h1 h2 h3
  · intro p pv iv h1 h2 h3 h4
    exact normalizeProducts_neither h1 h2 h3 h4
  · intro fs rows h
    have h1 : jsGet (JsVal.obj fs) "items" = some (.arr rows) := by
      show some (getField fs "items") = _
      rw [h]
    have h2 : jsGet (JsVal.obj [("items", .arr rows)]) "items" =
        some (.arr rows) := rfl
    rw [normalizeRows_items h1, normalizeRows_items h2]
  · intro iv p ps h1 h2 h3
    exact normalizeRows_products h1 h2 h3
  · intro p iv pv h1 h2 h3 h4
    exact normalizeRows_neither h1 h2 h3 h4

theorem claim_C5_amended_witness :
    normalizeProducts (.obj [("products", .arr [exNestedProd])]) =
      normalizeProducts (.obj [("source",
        getField [("products", .arr [exNestedProd])] "source"),
        ("products", .arr [exNestedProd])]) :=
  claim_C5_amended.1 [("products", .arr [exNestedProd])] [exNestedProd] (by decide)

/-- C2 counterexample: the claim says `variation_inline` is never empty
"even when a product's raw `variations` array is present and non-empty but
all of its entries resolve to empty text" — but in exactly that case the
code returns the joined empty rendering early without falling through: a
ready product whose stock has `variations: [""]` produces a line whose
`variation_inline` is the empty string. -/
theorem claim_C2_counterexample :
    (normalizeProducts cexC2payload).map
      (fun out => out.map (fun p => p.lines.map (fun l => l.variation_inline))) =
      some [[""]] := by
  decide

/-- C2 (amended): every stock line's `variation_inline` is the value of
`formatVariationInline` on the fields of the line's own raw entry — in the
nested shape each canonical product comes from one raw product `pr` and each
of its lines is `mkNestedLine` of one stock entry `st` of `pr`, so its
`variation_inline` is `formatVariationInline` of `st`'s `variations`,
`variation_text` and `sku`; in the flat shape each line is `mkFlatLine` of
one raw row `r`, so its `variation_inline` is `formatVariationInline` of an
empty array, `r`'s `variation_text` and `r`'s `sku` — and that value is
empty exactly when `fviEmptyCause` holds: the `variations` array is present
and non-empty with every entry resolving to empty text, or (with no usable
array) the trimmed `variation_text` is non-empty, does not start with
`{`, and splits into only blank comma-parts.  In every other case the
field is non-empty. -/
theorem claim_C2_amended :
    (∀ (payload : JsVal) (ps : List JsVal) (out : List CanonicalProduct),
      jsGet payload "products" = some (.arr ps) →
      normalizeProducts payload = some out →
      ∀ p ∈ out, ∃ pr ∈ ps, ∀ l ∈ p.lines, ∃ st ∈ stocksOfD pr,
        l = mkNestedLine (nestedProductLink (sourceWebsite payload) pr) st ∧
        l.variation_inline = formatVariationInline (jsGetD st "variations")
          (jsGetD st "variation_text") (jsGetD st "sku")) ∧
    (∀ (payload pv : JsVal) (rows : List JsVal) (out : List CanonicalProduct),
      jsGet payload "products" = some pv → isArrB pv = false →
      jsGet payload "items" = some (.arr rows) →
      normalizeProducts payload = some out →
      ∀ p ∈ out, ∀ l ∈ p.lines, ∃ r ∈ rows, readyRowD r = true ∧
        l = mkFlatLine r p.product_link ∧
        l.variation_inline = formatVariationInline (.arr [])
          (jsGetD r "variation_text") (jsGetD r "sku")) ∧
    (∀ v t s : JsVal, formatVariationInline v t s = "" ↔ fviEmptyCause v t = true) := by
  refine ⟨?_, ?_, fvi_eq_empty_iff⟩
  · intro payload ps out h hout p hp
    obtain ⟨_, hmem⟩ := normalizeProducts_nested_mem h hout
    obtain ⟨pr, hpr, hprnn, hready, hmk⟩ := hmem p hp
    refine ⟨pr, hpr, ?_⟩
    intro l hl
    obtain ⟨_, hlines⟩ := mkNestedProductM_fields hprnn hmk
    obtain ⟨st, hst, hstnn, hleq⟩ := hlines l hl
    exact ⟨st, hst, hleq, by rw [hleq]; rfl⟩
  · intro payload pv rows out h1 h2 h3 hout p hp l hl
    obtain ⟨hnn, hout'⟩ := normalizeProducts_flat_out h1 h2 h3 hout
    rw [hout'] at hp
    obtain ⟨r, hr, hleq⟩ := groupRows_lines hp hl
    exact ⟨r, (List.mem_filter.mp hr).1, (List.mem_filter.mp hr).2, hleq,
      by rw [hleq]; rfl⟩

theorem claim_C2_amended_witness :
    (∃ pr ∈ [exNestedProd], ∀ l ∈ exProdCanonNested.lines, ∃ st ∈ stocksOfD pr,
      l = mkNestedLine (nestedProductLink (sourceWebsite exNestedPayload) pr) st ∧
      l.variation_inline = formatVariationInline (jsGetD st "variations")
        (jsGetD st "variation_text") (jsGetD st "sku")) ∧
    (formatVariationInline (.arr [.str ""]) .null .null = "" ↔
      fviEmptyCause (.arr [.str ""]) .null = true) :=
  ⟨claim_C2_amended.1 exNestedPayload [exNestedProd] [exProdCanonNested]
      (by decide) (by decide) exProdCanonNested (by decide),
   claim_C2_amended.2.2 (.arr [.str ""]) .null .null⟩

/-- C1: in both variants and both payload shapes, exactly the products or
rows whose (stringified, leading-trimmed, lower-cased) name starts with
`[ready]` survive normalization: variant 1's nested branch keeps one
canonical product per ready raw product and every kept product carries a
ready name; its flat branch produces buckets whose names are ready, every
line comes from a ready row, and every ready row contributes its line to a
bucket; variant 2's items branch keeps a row iff it is ready, and its
nested branch emits, in order, exactly one row per stock entry of each
ready product and nothing for a non-ready product — so in particular every
emitted row's `product_name` is ready. -/
theorem claim_C1 (payload : JsVal) :
    (∀ (ps : List JsVal) (out : List CanonicalProduct),
      jsGet payload "products" = some (.arr ps) →
      normalizeProducts payload = some out →
      out.length = (ps.filter readyNestedD).length ∧
      ∀ c ∈ out, isReadyProductName c.product_name = true) ∧
    (∀ (pv : JsVal) (rows : List JsVal) (out : List CanonicalProduct),
      jsGet payload "products" = some pv → isArrB pv = false →
      jsGet payload "items" = some (.arr rows) →
      normalizeProducts payload = some out →
      (∀ c ∈ out, isReadyProductName c.product_name = true) ∧
      (∀ c ∈ out, ∀ l ∈ c.lines, ∃ r ∈ rows, readyRowD r = true ∧
        l = mkFlatLine r c.product_link) ∧
      (∀ r ∈ rows, readyRowD r = true →
        ∃ c ∈ out, mkFlatLine r c.product_link ∈ c.lines)) ∧
    (∀ (rows out : List JsVal),
      jsGet payload "items" = some (.arr rows) →
      normalizeRows payload = some out →
      ∀ r, r ∈ out ↔ r ∈ rows ∧ readyRowD r = true) ∧
    (∀ (iv : JsVal) (ps out : List JsVal),
      jsGet payload "items" = some iv → isArrB iv = false →
      jsGet payload "products" = some (.arr ps) →
      normalizeRows payload = some out →
      out = flatMapList (fun pr => if readyV2D pr then
          (stocksOfD pr).map (mkV2Row (nestedProductId pr) (nestedProductName pr))
        else []) ps ∧
      ∀ r ∈ out, isReadyProductName (jsGetD r "product_name") = true) := by
  refine ⟨?_, ?_, ?_, ?_⟩
  · intro ps out h hout
    obtain ⟨hlen, hmem⟩ := normalizeProducts_nested_mem h hout
    refine ⟨hlen, fun c hc => ?_⟩
    obtain ⟨pr, hpr, hnn, hready, hmk⟩ := hmem c hc
    obtain ⟨hname, _⟩ := mkNestedProductM_fields hnn hmk
    rw [hname]
    exact (readyV2D_of_readyNestedD hready).1
  · intro pv rows out h1 h2 h3 hout
    obtain ⟨hnn, hout'⟩ := normalizeProducts_flat_out h1 h2 h3 hout
    subst hout'
    refine ⟨?_, ?_, ?_⟩
    · intro c hc
      obtain ⟨r0, hr0, hfind, heq⟩ := groupRows_fields hc
      have hready : readyRowD r0 = true := (List.mem_filter.mp hr0).2
      have hn : c.product_name = jsOr (jsGetD r0 "product_name") (.str "Tanpa Nama") := by
        rw [heq]
        rfl
      rw [hn, jsOr_ready hready]
      exact hready
    · intro c hc l hl
      obtain ⟨r, hr, hleq⟩ := groupRows_lines hc hl
      exact ⟨r, (List.mem_filter.mp hr).1, (List.mem_filter.mp hr).2, hleq⟩
    · intro r hr hready
      exact groupRows_cover (List.mem_filter.mpr ⟨hr, hready⟩)
  · intro rows out h hout
    obtain ⟨hnn, hout'⟩ := normalizeRows_items_out h hout
    subst hout'
    intro r
    exact List.mem_filter
  · intro iv ps out h1 h2 h3 hout
    refine ⟨normalizeRows_products_out h1 h2 h3 hout, ?_⟩
    intro r hr
    obtain ⟨pr, hpr, hnn, hready, st, hst, hstnn, hreq⟩ :=
      normalizeRows_products_mem h1 h2 h3 hout r hr
    rw [hreq, mkV2Row_name]
    exact hready

theorem claim_C1_witness :
    (([exProdCanonNested].length = ([exNestedProd].filter readyNestedD).length ∧
      ∀ c ∈ [exProdCanonNested], isReadyProductName c.product_name = true) ∧
     ([exV2Row] = flatMapList (fun pr => if readyV2D pr then
         (stocksOfD pr).map (mkV2Row (nestedProductId pr) (nestedProductName pr))
       else []) [exNestedProd] ∧
      ∀ r ∈ [exV2Row], isReadyProductName (jsGetD r "product_name") = true)) :=
  ⟨(claim_C1 exNestedPayload).1 [exNestedProd] [exProdCanonNested] (by decide) (by decide),
   (claim_C1 exNestedPayload).2.2.2 .null [exNestedProd] [exV2Row]
     (by decide) (by decide) (by decide) (by decide)⟩
